import Mathlib

/-!
# DHC: delta + Huffman codec of `components/dhc/dhc.cpp`

Shallow embedding of the in-memory codec (`DHC::compress`, `DHC::decompress` and the
private helpers they call) and the properties proved about it.

Conventions of the embedding.

* Target: ESP32 (32-bit, little-endian). `size_t` and `uint32_t` are 32 bits wide,
  `memcpy` between bytes and `uint16_t` is little-endian.
* Machine integers are `Nat` / `Int`; every narrowing the source performs is an explicit
  reduction modulo `2^w`.
* A byte buffer is a `List Nat` (entries below 256); `input_size` is its length.
  Pointers are taken to be non-null.
* A call whose C++ execution has undefined behaviour (null dereference, element access
  outside a vector) has outcome `Outcome.undefined`.
* `std::unordered_map` is the list of its entries (distinct keys).
* `std::priority_queue` is the list of the nodes it holds. Which of several nodes of
  least frequency `top()` yields is left open by the standard library; it is the
  parameter `tie` of every function that builds a code table.
-/

/-! ## Outcomes -/

/-- Outcome of a call: either the execution is undefined, or it returns a value. -/
inductive Outcome (α : Type) where
  | undefined : Outcome α
  | returned (a : α) : Outcome α
deriving DecidableEq, Repr

/-- Sequencing of calls: an undefined step makes the whole execution undefined. -/
def Outcome.bind {α β : Type} : Outcome α → (α → Outcome β) → Outcome β
  | .undefined, _ => .undefined
  | .returned a, f => f a

/-- Applies a function to the value returned. -/
def Outcome.map {α β : Type} (f : α → β) : Outcome α → Outcome β
  | .undefined => .undefined
  | .returned a => .returned (f a)

/-! ## Machine integers -/

/-- Conversion `static_cast<int16_t>(x)`: the representative of `x` modulo `2^16` in
`[-32768, 32767]`. -/
def toInt16 (x : Int) : Int := (x + 32768) % 65536 - 32768

/-- Conversion `static_cast<uint16_t>(x)`: the representative of `x` modulo `2^16` in
`[0, 65535]`. -/
def toUInt16 (x : Int) : Nat := (x % 65536).toNat

/-- Two's-complement wrap of an `int32_t` result. -/
def toInt32 (x : Int) : Int := (x + 2147483648) % 4294967296 - 2147483648

/-! ## Huffman tree nodes -/

/-- A `std::shared_ptr<HuffmanNode>`: the null pointer, or a node with its `value`,
`frequency`, `left` and `right`. -/
inductive HuffmanNode where
  | null : HuffmanNode
  | node (value : Int) (frequency : Nat) (left right : HuffmanNode) : HuffmanNode
deriving DecidableEq, Repr

namespace HuffmanNode

/-- Field `frequency` (only read on non-null nodes). -/
def frequency : HuffmanNode → Nat
  | null => 0
  | node _ f _ _ => f

/-- The test `!node->left && !node->right` on a non-null node. -/
def isLeaf : HuffmanNode → Bool
  | node _ _ null null => true
  | _ => false

end HuffmanNode

/-- Comparator of the priority queue: `a->frequency > b->frequency`. -/
def CompareNodes (a b : HuffmanNode) : Bool := decide (a.frequency > b.frequency)

/-! ## `std::unordered_map<int16_t, V>` -/

/-- Lookup `m.find(k)`. -/
def mapFind {V : Type} : List (Int × V) → Int → Option V
  | [], _ => none
  | (k1, v) :: rest, k => if k1 = k then some v else mapFind rest k

/-- Assignment `m[k] = v`: overwrite the entry of `k`, or add one. -/
def mapSet {V : Type} : List (Int × V) → Int → V → List (Int × V)
  | [], k, v => [(k, v)]
  | (k1, v1) :: rest, k, v => if k1 = k then (k, v) :: rest else (k1, v1) :: mapSet rest k v

/-- Read `m[k]` of an entry (a missing key reads as the default-constructed `dflt`). -/
def mapGet {V : Type} (m : List (Int × V)) (k : Int) (dflt : V) : V :=
  (mapFind m k).getD dflt

/-- Statement `frequencies[value]++`. -/
def mapIncr (m : List (Int × Nat)) (k : Int) : List (Int × Nat) :=
  mapSet m k (mapGet m k 0 + 1)

/-! ## `std::priority_queue<shared_ptr<HuffmanNode>, vector<…>, CompareNodes>` -/

/-- The nodes `top()` may yield: those that `CompareNodes` puts after no node of the
queue, that is the nodes of least frequency. -/
def isTop (q : List HuffmanNode) (t : HuffmanNode) : Bool :=
  q.all fun x => !CompareNodes t x

/-- Takes the `k`-th node (from 0) among those of `xs` that `top()` of queue `q` may
yield, and returns it with the other nodes. -/
def takeTop (q : List HuffmanNode) : Nat → List HuffmanNode → Option (HuffmanNode × List HuffmanNode)
  | _, [] => none
  | k, x :: xs =>
    if isTop q x then
      match k with
      | 0 => some (x, xs)
      | k + 1 => (takeTop q k xs).map fun p => (p.1, x :: p.2)
    else (takeTop q k xs).map fun p => (p.1, x :: p.2)

/-- The pair `top(); pop()`: the node yielded and the queue left. `tie` chooses among
the nodes of least frequency. `none` on an empty queue. -/
def popTop (tie : List HuffmanNode → Nat) (q : List HuffmanNode) :
    Option (HuffmanNode × List HuffmanNode) :=
  takeTop q (tie q % (q.filter (isTop q)).length) q

/-- The instance state of a codec: the two members `compress` records. -/
structure DHC where
  lastDeltaValues : List Int
  lastHuffmanCodes : List (Int × List Bool)
deriving DecidableEq, Repr

/-- What a `bool`-returning entry point hands back: the flag and the bytes stored at
`output`. On success `*output_size` is set to the number of those bytes; on failure
nothing is stored and `*output_size` is left as it was. -/
structure Ret where
  ok : Bool
  output : List Nat
deriving DecidableEq, Repr

namespace DHC

/-- Constant `MAGIC = 0x4448`. -/
def MAGIC : Nat := 0x4448

/-- A freshly constructed codec (`DHC::DHC()`): both members empty. -/
def fresh : DHC := ⟨[], []⟩

/-! ## Delta transform -/

/-- Loop `for (i = 1; i < data.size(); i++)` of `computeDeltaValues`; `prev` is
`data[i-1]`. The difference is taken in `int` and stored into an `int16_t`. -/
def deltaLoop (prev : Nat) : List Nat → List Int
  | [] => []
  | x :: xs => toInt16 (toInt16 x - toInt16 prev) :: deltaLoop x xs

/-- Method `DHC::computeDeltaValues`. On an empty vector `deltaValues[0] = …` is an
access outside the vector. -/
def computeDeltaValues : List Nat → Outcome (List Int)
  | [] => .undefined
  | d0 :: rest => .returned (toInt16 d0 :: deltaLoop d0 rest)

/-- Loop `for (i = 1; i < deltaValues.size(); i++)` of `reconstructFromDelta`. The
accumulator is an `int32_t`; its addition is taken modulo `2^32`. -/
def reconLoop (accumulator : Int) : List Int → List Nat
  | [] => []
  | d :: ds => toUInt16 (toInt32 (accumulator + d)) :: reconLoop (toInt32 (accumulator + d)) ds

/-- Method `DHC::reconstructFromDelta`. On an empty vector `deltaValues[0]` is an
access outside the vector. -/
def reconstructFromDelta : List Int → Outcome (List Nat)
  | [] => .undefined
  | d0 :: rest => .returned (toUInt16 d0 :: reconLoop d0 rest)

/-! ## Huffman code construction -/

/-- Method `DHC::generateCodes`: depth-first walk that records `code` at every leaf. -/
def generateCodes : HuffmanNode → List Bool → List (Int × List Bool) → List (Int × List Bool)
  | .null, _, codes => codes
  | .node value frequency left right, code, codes =>
    let codes1 := if (HuffmanNode.node value frequency left right).isLeaf
      then mapSet codes value code else codes
    generateCodes right (code ++ [true]) (generateCodes left (code ++ [false]) codes1)

/-- Loop `while (pq.size() > 1)`: pop two nodes, push their parent. Each round shortens
the queue by one, so `fuel = pq.size()` rounds are enough. -/
def buildTree (tie : List HuffmanNode → Nat) : Nat → List HuffmanNode → List HuffmanNode
  | 0, pq => pq
  | fuel + 1, pq =>
    if pq.length > 1 then
      match popTop tie pq with
      | none => pq
      | some (left, pq1) =>
        match popTop tie pq1 with
        | none => pq1
        | some (right, pq2) =>
          buildTree tie fuel
            (pq2 ++ [HuffmanNode.node 0 (left.frequency + right.frequency) left right])
    else pq

/-- Loop `for (value : deltaValues) frequencies[value]++`. -/
def countFrequencies (deltaValues : List Int) : List (Int × Nat) :=
  deltaValues.foldl mapIncr []

/-- Method `DHC::buildHuffmanCodes`. -/
def buildHuffmanCodes (tie : List HuffmanNode → Nat) (deltaValues : List Int) :
    List (Int × List Bool) :=
  let frequencies := countFrequencies deltaValues
  match frequencies with
  | [(value, _)] => [(value, [false])]
  | _ =>
    let pq := frequencies.foldl
      (fun pq pair => pq ++ [HuffmanNode.node pair.1 pair.2 .null .null]) []
    match popTop tie (buildTree tie pq.length pq) with
    | some (top, _) => generateCodes top [] []
    | none => []

/-! ## Buffers -/

/-- The `uint16_t` vector `memcpy` fills from an even number of bytes (little-endian). -/
def bytesToSamples : List Nat → List Nat
  | lo :: hi :: rest => (lo + 256 * hi) :: bytesToSamples rest
  | _ => []

/-- The bytes `memcpy` stores for a `uint16_t` vector (little-endian). -/
def samplesToBytes : List Nat → List Nat
  | [] => []
  | x :: xs => x % 256 :: x / 256 % 256 :: samplesToBytes xs

/-- One round of the packing loop on `(bytes written, currentByte, bitCount)`:
`currentByte = (currentByte << 1) | bit` in a `uint8_t`, stored when eight bits are in. -/
def packStep (st : List Nat × Nat × Nat) (bit : Bool) : List Nat × Nat × Nat :=
  let currentByte := ((st.2.1 <<< 1) ||| (if bit then 1 else 0)) % 256
  let bitCount := st.2.2 + 1
  if bitCount = 8 then (st.1 ++ [currentByte], 0, 0) else (st.1, currentByte, bitCount)

/-- The packing loop and the handling of the remaining bits
(`currentByte <<= (8 - bitCount)`). -/
def packBits (bits : List Bool) : List Nat :=
  let st := bits.foldl packStep ([], 0, 0)
  if st.2.2 > 0 then st.1 ++ [(st.2.1 <<< (8 - st.2.2)) % 256] else st.1

/-- The bits `bits[7], …, bits[0]` of `std::bitset<8> bits(byte)`. -/
def byteBits (byte : Nat) : List Bool :=
  [7, 6, 5, 4, 3, 2, 1, 0].map fun j => byte.testBit j

/-! ## `compress` -/

/-- The bits `compress` collects: for each delta the characters of `huffmanCodes[value]`. -/
def encodeBits (huffmanCodes : List (Int × List Bool)) (deltaValues : List Int) : List Bool :=
  deltaValues.flatMap fun value => mapGet huffmanCodes value []

/-- The six header bytes: `MAGIC`, then `originalSize` (a `uint32_t`) high byte first. -/
def header (originalSize : Nat) : List Nat :=
  [(MAGIC >>> 8) % 256, (MAGIC &&& 0xFF) % 256,
   ((originalSize >>> 24) &&& 0xFF) % 256, ((originalSize >>> 16) &&& 0xFF) % 256,
   ((originalSize >>> 8) &&& 0xFF) % 256, (originalSize &&& 0xFF) % 256]

/-- Method `DHC::compress`, with the instance after the call. The source never reads the
capacity of `output`; the bytes listed are the ones it stores there. With an odd
`input_size` the `memcpy` of `input_size` bytes into a vector of `input_size / 2`
samples writes one byte past the vector. -/
def compress (tie : List HuffmanNode → Nat) (self : DHC) (input : List Nat) :
    Outcome (Ret × DHC) :=
  if input.length = 0 then .returned (⟨false, []⟩, self)
  else if input.length % 2 = 1 then .undefined
  else
    let data := bytesToSamples input
    match computeDeltaValues data with
    | .undefined => .undefined
    | .returned deltaValues =>
      let huffmanCodes := buildHuffmanCodes tie deltaValues
      let originalSize := data.length % 2 ^ 32
      .returned (⟨true, header originalSize ++ packBits (encodeBits huffmanCodes deltaValues)⟩,
        ⟨deltaValues, huffmanCodes⟩)

/-! ## `decompress` -/

/-- Inner loop of the tree reconstruction: walks `code` from the pointer `current`,
creating the missing nodes with `make_shared<HuffmanNode>(0, 0)`, and sets `value` at
the node reached. Returns the subtree now hanging at `current`. -/
def insertCode (value : Int) : List Bool → HuffmanNode → HuffmanNode
  | [], .null => .node value 0 .null .null
  | [], .node _ f l r => .node value f l r
  | bit :: code, .null =>
    if bit then .node 0 0 .null (insertCode value code .null)
    else .node 0 0 (insertCode value code .null) .null
  | bit :: code, .node v f l r =>
    if bit then .node v f l (insertCode value code r)
    else .node v f (insertCode value code l) r

/-- The tree `decompress` rebuilds from the retained code table. -/
def rebuildTree (huffmanCodes : List (Int × List Bool)) : HuffmanNode :=
  huffmanCodes.foldl (fun root pair => insertCode pair.1 pair.2 root) (.node 0 0 .null .null)

/-- Inner loop `for (j = 7; j >= 0; j--)` over the bits of one byte, on
`(current, deltaValues)`; ends early at the `break`. Stepping to a missing child makes
the following `current->left` a null dereference. -/
def decodeByte (root : HuffmanNode) (originalSize : Nat) :
    List Bool → HuffmanNode → List Int → Outcome (HuffmanNode × List Int)
  | [], current, deltaValues => .returned (current, deltaValues)
  | bit :: bits, current, deltaValues =>
    match current with
    | .null => .undefined
    | .node _ _ left right =>
      match (if bit then right else left) with
      | .null => .undefined
      | .node value f l r =>
        if (HuffmanNode.node value f l r).isLeaf then
          if (deltaValues ++ [value]).length = originalSize then
            .returned (root, deltaValues ++ [value])
          else decodeByte root originalSize bits root (deltaValues ++ [value])
        else decodeByte root originalSize bits (.node value f l r) deltaValues

/-- Outer loop `for (i = 6; i < input_size; i++)` over the payload bytes, with its
`break` after a byte once `deltaValues.size() == originalSize`. -/
def decodeLoop (root : HuffmanNode) (originalSize : Nat) :
    List Nat → HuffmanNode → List Int → Outcome (List Int)
  | [], _, deltaValues => .returned deltaValues
  | byte :: rest, current, deltaValues =>
    match decodeByte root originalSize (byteBits byte) current deltaValues with
    | .undefined => .undefined
    | .returned (current1, deltaValues1) =>
      if deltaValues1.length = originalSize then .returned deltaValues1
      else decodeLoop root originalSize rest current1 deltaValues1

/-- Method `DHC::decompress`; `output_size` is `*output_size` on entry. The instance is
not changed. The bytes listed are the ones the final `memcpy` stores at `output`. -/
def decompress (self : DHC) (input : List Nat) (output_size : Nat) : Outcome Ret :=
  match input with
  | b0 :: b1 :: b2 :: b3 :: b4 :: b5 :: payload =>
    let magic := ((b0 <<< 8) ||| b1) % 2 ^ 16
    if magic ≠ MAGIC then .returned ⟨false, []⟩
    else
      let originalSize := ((b2 <<< 24) ||| (b3 <<< 16) ||| (b4 <<< 8) ||| b5) % 2 ^ 32
      if output_size < (originalSize * 2) % 2 ^ 32 then .returned ⟨false, []⟩
      else
        let root := rebuildTree self.lastHuffmanCodes
        match decodeLoop root originalSize payload root [] with
        | .undefined => .undefined
        | .returned deltaValues =>
          match reconstructFromDelta deltaValues with
          | .undefined => .undefined
          | .returned originalData => .returned ⟨true, samplesToBytes originalData⟩
  | _ => .returned ⟨false, []⟩

/-! ## Specification-side views of a tree and a code table -/


/-- The leaves of a tree from left to right, each with its `value` and the path from the
root (`false` = left, `true` = right). -/
def leafCodes : HuffmanNode → List (Int × List Bool)
  | .null => []
  | .node value f left right =>
    if (HuffmanNode.node value f left right).isLeaf then [(value, [])]
    else (leafCodes left).map (fun p => (p.1, false :: p.2))
      ++ (leafCodes right).map (fun p => (p.1, true :: p.2))

/-- The keys of a map, in entry order. -/
def keys {V : Type} (m : List (Int × V)) : List Int := m.map Prod.fst

/-- No code of the table is an initial segment of a code listed after it or before it. -/
def PrefixFree (table : List (Int × List Bool)) : Prop :=
  table.Pairwise fun p q => ¬ p.2 <+: q.2 ∧ ¬ q.2 <+: p.2

/-- The pointer reached from `t` by following `path` (`false` = `left`, `true` = `right`);
null once a child is missing. -/
def walk : HuffmanNode → List Bool → HuffmanNode
  | t, [] => t
  | .null, _ :: _ => .null
  | .node _ _ l r, bit :: path => walk (if bit then r else l) path

/-- What the decoder needs of the rebuilt tree `t` for the table `S`: nothing hangs off
the codes of `S`, each code ends at a childless node holding its symbol, and every proper
initial segment of a code ends at a node with a child. -/
def TrieInv (t : HuffmanNode) (S : List (Int × List Bool)) : Prop :=
  (∀ p, p ≠ [] → (∀ e ∈ S, ¬ p <+: e.2) → walk t p = .null)
  ∧ (∀ e ∈ S, walk t e.2 = .node e.1 0 .null .null)
  ∧ (∀ e ∈ S, ∀ p q, e.2 = p ++ q → q ≠ [] →
      ∃ v f l r, walk t p = .node v f l r ∧ (HuffmanNode.node v f l r).isLeaf = false)

/-- The value `currentByte` holds after the pending bits `pend` were shifted in. -/
def pendVal (pend : List Bool) : Nat :=
  pend.foldl (fun cur bit => ((cur <<< 1) ||| (if bit then 1 else 0)) % 256) 0

/-! ## The file path: one chunk -/

/-- Method `DHC::process_file_chunk`: the bytes it writes to `out_file`, with the instance
after the call. As in `compress`, an odd `buffer_size` makes the `memcpy` write one byte
past the vector of `buffer_size / 2` samples. -/
def process_file_chunk (tie : List HuffmanNode → Nat) (_self : DHC) (buffer : List Nat) :
    Outcome (Ret × DHC) :=
  if buffer.length % 2 = 1 then .undefined
  else
    let data := bytesToSamples buffer
    match computeDeltaValues data with
    | .undefined => .undefined
    | .returned deltaValues =>
      let huffmanCodes := buildHuffmanCodes tie deltaValues
      .returned (⟨true, packBits (encodeBits huffmanCodes deltaValues)⟩,
        ⟨deltaValues, huffmanCodes⟩)

/-- Loop `for (bool bit : bits)` of `process_compressed_chunk`, on
`(current, deltaValues)`: every bit of the chunk is walked, there is no `break`. -/
def decodeChunk (root : HuffmanNode) :
    List Bool → HuffmanNode → List Int → Outcome (List Int)
  | [], _, deltaValues => .returned deltaValues
  | bit :: bits, current, deltaValues =>
    match current with
    | .null => .undefined
    | .node _ _ left right =>
      match (if bit then right else left) with
      | .null => .undefined
      | .node value f l r =>
        if (HuffmanNode.node value f l r).isLeaf then
          decodeChunk root bits root (deltaValues ++ [value])
        else decodeChunk root bits (.node value f l r) deltaValues

/-- Method `DHC::process_compressed_chunk`: the bytes it writes to `out_file`. The
instance is not changed. -/
def process_compressed_chunk (self : DHC) (buffer : List Nat) : Outcome Ret :=
  let bits := buffer.flatMap byteBits
  let root := rebuildTree self.lastHuffmanCodes
  match decodeChunk root bits root [] with
  | .undefined => .undefined
  | .returned deltaValues =>
    match reconstructFromDelta deltaValues with
    | .undefined => .undefined
    | .returned originalData => .returned ⟨true, samplesToBytes originalData⟩

/-! ## Specification-side views of the tree under construction -/

/-- Every node of the (non-null) tree has no child or two children. -/
def Full : HuffmanNode → Prop
  | .null => False
  | .node _ _ l r => (l = .null ∧ r = .null) ∨ (Full l ∧ Full r)

/-- The Kraft sum of a table: the sum of `2 ^ (-length)` over its codes. -/
def kraftSum (table : List (Int × List Bool)) : ℚ :=
  (table.map fun p => (1 / 2 : ℚ) ^ p.2.length).sum

/-- For every node of a tree that has a child: its frequency, the frequency of its left
child and the frequency of its right child. -/
def inners : HuffmanNode → List (Nat × Nat × Nat)
  | .null => []
  | .node v f l r =>
    if (HuffmanNode.node v f l r).isLeaf then []
    else (f, l.frequency, r.frequency) :: (inners l ++ inners r)

/-- Two parents compare as their children do: the children of the parent of lesser or
equal frequency have at most the frequency of each child of the other parent. -/
def ParentsOrdered (s t : Nat × Nat × Nat) : Prop :=
  (s.1 ≤ t.1 → s.2.1 ≤ t.2.1 ∧ s.2.1 ≤ t.2.2 ∧ s.2.2 ≤ t.2.1 ∧ s.2.2 ≤ t.2.2)
    ∧ (t.1 ≤ s.1 → t.2.1 ≤ s.2.1 ∧ t.2.1 ≤ s.2.2 ∧ t.2.2 ≤ s.2.1 ∧ t.2.2 ≤ s.2.2)

/-- What holds of the priority queue throughout `buildTree`, for the frequency map `fr`:
the trees are full, their leaves are entries of `fr`, a parent carries the sum of its
children, no child is more frequent than a tree still in the queue, and the parents are
ordered as their children. -/
def QueueInv (fr : List (Int × Nat)) (q : List HuffmanNode) : Prop :=
  (∀ t ∈ q, Full t)
    ∧ (∀ t ∈ q, ∀ p v f, walk t p = .node v f .null .null → (v, f) ∈ fr)
    ∧ (∀ s ∈ q.flatMap inners, s.1 = s.2.1 + s.2.2)
    ∧ (∀ s ∈ q.flatMap inners, ∀ t ∈ q, s.2.1 ≤ t.frequency ∧ s.2.2 ≤ t.frequency)
    ∧ (q.flatMap inners).Pairwise ParentsOrdered

/-- The part of `buildHuffmanCodes` that follows the frequency count. -/
def codesOfFrequencies (tie : List HuffmanNode → Nat) (frequencies : List (Int × Nat)) :
    List (Int × List Bool) :=
  match frequencies with
  | [(value, _)] => [(value, [false])]
  | _ =>
    let pq := frequencies.foldl
      (fun pq pair => pq ++ [HuffmanNode.node pair.1 pair.2 .null .null]) []
    match popTop tie (buildTree tie pq.length pq) with
    | some (top, _) => generateCodes top [] []
    | none => []

/-! # Properties -/


/-! ## Machine-integer facts -/

theorem toUInt16_toInt16 (x : Nat) (h : x < 65536) : toUInt16 (toInt16 x) = x := by
  unfold toUInt16 toInt16
  omega

theorem toInt16_sub (x y : Nat) :
    toInt16 (toInt16 y - toInt16 x)
      = if ((y : Int) - x) % 65536 < 32768 then ((y : Int) - x) % 65536
        else ((y : Int) - x) % 65536 - 65536 := by
  unfold toInt16
  split_ifs <;> omega

theorem toInt16_nat (x : Nat) (h : x < 65536) :
    toInt16 x = if x < 32768 then (x : Int) else (x : Int) - 65536 := by
  unfold toInt16
  split_ifs <;> omega

theorem recon_step (acc : Int) (prev x : Nat) (hx : x < 65536) (h : acc % 65536 = prev) :
    toUInt16 (toInt32 (acc + toInt16 (toInt16 x - toInt16 prev))) = x
      ∧ toInt32 (acc + toInt16 (toInt16 x - toInt16 prev)) % 65536 = x := by
  unfold toUInt16 toInt32 toInt16
  omega

theorem shl8_or (a b : Nat) (hb : b < 256) : (a <<< 8) ||| b = 256 * a + b := by
  rw [Nat.shiftLeft_eq, Nat.mul_comm]
  exact (Nat.mul_add_lt_is_or (i := 8) hb a).symm

/-! ## Delta transform -/

theorem deltaLoop_length (prev : Nat) (xs : List Nat) :
    (deltaLoop prev xs).length = xs.length := by
  induction xs generalizing prev with
  | nil => rfl
  | cons x xs ih => simp [deltaLoop, ih]

theorem deltaLoop_getElem (prev : Nat) (xs : List Nat) (i : Nat) (x y : Nat)
    (hx : (prev :: xs)[i]? = some x) (hy : xs[i]? = some y) :
    (deltaLoop prev xs)[i]? = some (toInt16 (toInt16 y - toInt16 x)) := by
  induction xs generalizing prev i with
  | nil => simp at hy
  | cons z zs ih =>
    cases i with
    | zero =>
      simp at hx hy
      subst hx hy
      simp [deltaLoop]
    | succ i =>
      simp only [List.getElem?_cons_succ] at hx hy
      simp only [deltaLoop, List.getElem?_cons_succ]
      exact ih z i hx hy

theorem recon_deltaLoop (acc : Int) (prev : Nat) (xs : List Nat)
    (hxs : ∀ x ∈ xs, x < 65536) (h : acc % 65536 = prev) :
    reconLoop acc (deltaLoop prev xs) = xs := by
  induction xs generalizing acc prev with
  | nil => rfl
  | cons x xs ih =>
    have hx : x < 65536 := hxs x (List.mem_cons_self _ _)
    obtain ⟨h1, h2⟩ := recon_step acc prev x hx h
    simp only [deltaLoop, reconLoop, h1]
    rw [ih _ x (fun y hy => hxs y (List.mem_cons_of_mem _ hy)) h2]

theorem reconstruct_compute (s : List Nat) (hne : s ≠ []) (hs : ∀ x ∈ s, x < 65536) :
    ∃ d, computeDeltaValues s = .returned d ∧ d.length = s.length
      ∧ reconstructFromDelta d = .returned s := by
  cases s with
  | nil => exact absurd rfl hne
  | cons x0 rest =>
    have hx0 : x0 < 65536 := hs x0 (List.mem_cons_self _ _)
    refine ⟨_, rfl, by simp [deltaLoop_length], ?_⟩
    simp only [reconstructFromDelta, toUInt16_toInt16 x0 hx0]
    rw [recon_deltaLoop _ x0 rest (fun y hy => hs y (List.mem_cons_of_mem _ hy))]
    unfold toInt16
    omega

/-! ## Maps -/

theorem mapSet_of_not_mem {V : Type} (m : List (Int × V)) (k : Int) (v : V)
    (h : k ∉ keys m) : mapSet m k v = m ++ [(k, v)] := by
  induction m with
  | nil => rfl
  | cons p m ih =>
    obtain ⟨k1, v1⟩ := p
    simp only [keys, List.map_cons, List.mem_cons, not_or] at h
    have hne : ¬ k1 = k := fun e => h.1 e.symm
    simp only [mapSet, hne, if_false, List.cons_append]
    rw [ih h.2]

theorem keys_mapSet_of_mem {V : Type} (m : List (Int × V)) (k : Int) (v : V)
    (h : k ∈ keys m) : keys (mapSet m k v) = keys m := by
  induction m with
  | nil => simp [keys] at h
  | cons p m ih =>
    obtain ⟨k1, v1⟩ := p
    by_cases hk : k1 = k
    · simp [mapSet, hk, keys]
    · simp only [keys, List.map_cons, List.mem_cons] at h
      have hm : k ∈ keys m := by
        rcases h with h | h
        · exact absurd h.symm hk
        · exact h
      simp only [mapSet, hk, if_false, keys, List.map_cons]
      exact congrArg _ (ih hm)

theorem mapFind_of_mem {V : Type} (m : List (Int × V)) (k : Int) (v : V)
    (hnd : (keys m).Nodup) (h : (k, v) ∈ m) : mapFind m k = some v := by
  induction m with
  | nil => simp at h
  | cons p m ih =>
    obtain ⟨k1, v1⟩ := p
    simp only [keys, List.map_cons, List.nodup_cons] at hnd
    simp only [List.mem_cons, Prod.mk.injEq] at h
    rcases h with ⟨h1, h2⟩ | h
    · simp [mapFind, h1, h2]
    · have hne : ¬ k1 = k := by
        intro e
        apply hnd.1
        rw [e]
        exact List.mem_map.mpr ⟨(k, v), h, rfl⟩
      simp only [mapFind, hne, if_false]
      exact ih hnd.2 h

/-! ## Leaves and `generateCodes` -/

theorem isLeaf_node (v : Int) (f : Nat) (l r : HuffmanNode) :
    (HuffmanNode.node v f l r).isLeaf = true ↔ l = .null ∧ r = .null := by
  cases l <;> cases r <;> simp [HuffmanNode.isLeaf]

theorem leafCodes_leaf (v : Int) (f : Nat) :
    leafCodes (.node v f .null .null) = [(v, [])] := by
  simp [leafCodes, HuffmanNode.isLeaf]

theorem leafCodes_inner (v : Int) (f : Nat) (l r : HuffmanNode)
    (h : (HuffmanNode.node v f l r).isLeaf = false) :
    leafCodes (.node v f l r)
      = (leafCodes l).map (fun p => (p.1, false :: p.2))
        ++ (leafCodes r).map (fun p => (p.1, true :: p.2)) := by
  simp [leafCodes, h]

theorem keys_leafCodes_inner (v : Int) (f : Nat) (l r : HuffmanNode)
    (h : (HuffmanNode.node v f l r).isLeaf = false) :
    keys (leafCodes (.node v f l r)) = keys (leafCodes l) ++ keys (leafCodes r) := by
  rw [leafCodes_inner v f l r h]
  simp [keys, List.map_append, List.map_map, Function.comp_def]

theorem generateCodes_eq (t : HuffmanNode) (code : List Bool) (codes : List (Int × List Bool))
    (hnd : (keys codes ++ keys (leafCodes t)).Nodup) :
    generateCodes t code codes
      = codes ++ (leafCodes t).map (fun p => (p.1, code ++ p.2)) := by
  induction t generalizing code codes with
  | null => simp [generateCodes, leafCodes]
  | node v f l r ihl ihr =>
    cases hleaf : (HuffmanNode.node v f l r).isLeaf with
    | true =>
      obtain ⟨hl, hr⟩ := (isLeaf_node v f l r).mp hleaf
      subst hl hr
      have hv : v ∉ keys codes := by
        rw [leafCodes_leaf] at hnd
        intro hmem
        exact (List.nodup_append.mp hnd).2.2 hmem (List.mem_singleton_self v)
      simp [generateCodes, leafCodes_leaf, HuffmanNode.isLeaf, mapSet_of_not_mem codes v code hv]
    | false =>
      rw [keys_leafCodes_inner v f l r hleaf] at hnd
      have h1 : (keys codes ++ keys (leafCodes l)).Nodup := by
        rw [← List.append_assoc] at hnd
        exact (List.nodup_append.mp hnd).1
      have h2 : (keys (codes ++ (leafCodes l).map (fun p => (p.1, (code ++ [false]) ++ p.2)))
          ++ keys (leafCodes r)).Nodup := by
        simpa [keys, List.map_append, List.map_map, Function.comp_def] using hnd
      simp only [generateCodes, hleaf, Bool.false_eq_true, if_false]
      rw [ihl (code ++ [false]) codes h1, ihr _ _ h2, leafCodes_inner v f l r hleaf]
      simp [List.map_append, List.map_map, Function.comp_def]

theorem leafCodes_prefixFree (t : HuffmanNode) : PrefixFree (leafCodes t) := by
  induction t with
  | null => simp [leafCodes, PrefixFree]
  | node v f l r ihl ihr =>
    cases hleaf : (HuffmanNode.node v f l r).isLeaf with
    | true =>
      obtain ⟨hl, hr⟩ := (isLeaf_node v f l r).mp hleaf
      subst hl hr
      simp [leafCodes_leaf, PrefixFree]
    | false =>
      rw [leafCodes_inner v f l r hleaf]
      unfold PrefixFree at *
      rw [List.pairwise_append]
      refine ⟨?_, ?_, ?_⟩
      · rw [List.pairwise_map]
        refine List.Pairwise.imp ?_ ihl
        intro a b hab
        simpa [List.cons_prefix_cons] using hab
      · rw [List.pairwise_map]
        refine List.Pairwise.imp ?_ ihr
        intro a b hab
        simpa [List.cons_prefix_cons] using hab
      · intro a ha b hb
        obtain ⟨a1, _, rfl⟩ := List.mem_map.mp ha
        obtain ⟨b1, _, rfl⟩ := List.mem_map.mp hb
        simp [List.cons_prefix_cons]


/-! ## The priority queue -/

theorem isTop_iff (q : List HuffmanNode) (t : HuffmanNode) :
    isTop q t = true ↔ ∀ x ∈ q, t.frequency ≤ x.frequency := by
  simp [isTop, CompareNodes, List.all_eq_true]

theorem exists_least (q : List HuffmanNode) (hq : q ≠ []) :
    ∃ t ∈ q, ∀ x ∈ q, t.frequency ≤ x.frequency := by
  induction q with
  | nil => exact absurd rfl hq
  | cons a q ih =>
    cases q with
    | nil => exact ⟨a, List.mem_cons_self _ _, by simp⟩
    | cons b q =>
      obtain ⟨t, ht, hmin⟩ := ih (by simp)
      by_cases hat : a.frequency ≤ t.frequency
      · refine ⟨a, List.mem_cons_self _ _, ?_⟩
        intro x hx
        rcases List.mem_cons.mp hx with rfl | hx
        · exact le_refl _
        · exact le_trans hat (hmin x hx)
      · refine ⟨t, List.mem_cons_of_mem _ ht, ?_⟩
        intro x hx
        rcases List.mem_cons.mp hx with rfl | hx
        · omega
        · exact hmin x hx

theorem takeTop_spec (q : List HuffmanNode) (k : Nat) (xs : List HuffmanNode)
    (t : HuffmanNode) (r : List HuffmanNode) (h : takeTop q k xs = some (t, r)) :
    xs.Perm (t :: r) ∧ isTop q t = true := by
  induction xs generalizing k r with
  | nil => simp [takeTop] at h
  | cons x xs ih =>
    have hrec : ∀ k1, (takeTop q k1 xs).map (fun p => (p.1, x :: p.2)) = some (t, r) →
        (x :: xs).Perm (t :: r) ∧ isTop q t = true := by
      intro k1 h1
      cases hk : takeTop q k1 xs with
      | none => simp [hk] at h1
      | some p =>
        obtain ⟨t1, r1⟩ := p
        simp only [hk, Option.map_some', Option.some.injEq, Prod.mk.injEq] at h1
        obtain ⟨rfl, rfl⟩ := h1
        obtain ⟨hp, ht⟩ := ih k1 r1 hk
        exact ⟨(List.Perm.cons x hp).trans (List.Perm.swap _ _ _), ht⟩
    unfold takeTop at h
    by_cases hx : isTop q x = true
    · cases k with
      | zero =>
        simp only [hx, if_true, Option.some.injEq, Prod.mk.injEq] at h
        obtain ⟨rfl, rfl⟩ := h
        exact ⟨List.Perm.refl _, hx⟩
      | succ k =>
        simp only [hx, if_true] at h
        exact hrec k h
    · simp only [hx, Bool.false_eq_true, if_false] at h
      exact hrec k h

theorem takeTop_isSome (q : List HuffmanNode) (k : Nat) (xs : List HuffmanNode)
    (h : k < (xs.filter (isTop q)).length) : ∃ p, takeTop q k xs = some p := by
  induction xs generalizing k with
  | nil => simp at h
  | cons x xs ih =>
    unfold takeTop
    by_cases hx : isTop q x = true
    · cases k with
      | zero => simp [hx]
      | succ k =>
        simp only [List.filter_cons, hx, if_true, List.length_cons] at h
        obtain ⟨p, hp⟩ := ih k (by omega)
        simp [hx, hp]
    · simp only [List.filter_cons, hx, Bool.false_eq_true, if_false] at h
      obtain ⟨p, hp⟩ := ih k h
      simp [hx, hp]

theorem popTop_isSome (tie : List HuffmanNode → Nat) (q : List HuffmanNode) (hq : q ≠ []) :
    ∃ t r, popTop tie q = some (t, r) := by
  have hpos : 0 < (q.filter (isTop q)).length := by
    obtain ⟨t, ht, hmin⟩ := exists_least q hq
    exact List.length_pos_of_mem (List.mem_filter.mpr ⟨ht, (isTop_iff q t).mpr hmin⟩)
  obtain ⟨p, hp⟩ := takeTop_isSome q (tie q % (q.filter (isTop q)).length) q (Nat.mod_lt _ hpos)
  exact ⟨p.1, p.2, hp⟩

theorem popTop_spec (tie : List HuffmanNode → Nat) (q : List HuffmanNode)
    (t : HuffmanNode) (r : List HuffmanNode) (h : popTop tie q = some (t, r)) :
    q.Perm (t :: r) ∧ ∀ x ∈ q, t.frequency ≤ x.frequency := by
  obtain ⟨hp, ht⟩ := takeTop_spec q _ q t r h
  exact ⟨hp, (isTop_iff q t).mp ht⟩

theorem popTop_singleton (tie : List HuffmanNode → Nat) (t : HuffmanNode) :
    popTop tie [t] = some (t, []) := by
  obtain ⟨t1, r, h⟩ := popTop_isSome tie [t] (by simp)
  obtain ⟨hp, _⟩ := popTop_spec tie [t] t1 r h
  have hlen := hp.length_eq
  have hr : r = [] := by
    cases r with
    | nil => rfl
    | cons a r => simp at hlen
  subst hr
  have := List.perm_singleton.mp hp.symm
  simp only [List.cons.injEq, and_true] at this
  rw [h, this]

/-! ## The tree built by `buildTree` -/

theorem buildTree_singleton (tie : List HuffmanNode → Nat) (fuel : Nat) (t : HuffmanNode) :
    buildTree tie fuel [t] = [t] := by
  cases fuel <;> simp [buildTree]

theorem buildTree_spec (tie : List HuffmanNode → Nat) (fuel : Nat) (q : List HuffmanNode)
    (hq : q ≠ []) (hfuel : q.length ≤ fuel + 1) (hnn : ∀ t ∈ q, t ≠ .null) :
    ∃ root, buildTree tie fuel q = [root] ∧ root ≠ .null
      ∧ (keys (leafCodes root)).Perm (q.flatMap fun t => keys (leafCodes t))
      ∧ (2 ≤ q.length → root.isLeaf = false) := by
  induction fuel generalizing q with
  | zero =>
    match q, hq, hfuel with
    | [t], _, _ =>
      exact ⟨t, rfl, hnn t (List.mem_singleton_self t), by simp, by simp⟩
    | _ :: _ :: _, _, h => simp at h
  | succ fuel ih =>
    by_cases hlen : q.length > 1
    · obtain ⟨left, pq1, h1⟩ := popTop_isSome tie q hq
      obtain ⟨hp1, _⟩ := popTop_spec tie q left pq1 h1
      have hl1 : pq1.length + 1 = q.length := by
        have := hp1.length_eq
        simp only [List.length_cons] at this
        omega
      have hpq1 : pq1 ≠ [] := by
        intro e
        rw [e] at hl1
        simp at hl1
        omega
      obtain ⟨right, pq2, h2⟩ := popTop_isSome tie pq1 hpq1
      obtain ⟨hp2, _⟩ := popTop_spec tie pq1 right pq2 h2
      have hl2 : pq2.length + 1 = pq1.length := by
        have := hp2.length_eq
        simp only [List.length_cons] at this
        omega
      have hleft : left ≠ .null := hnn left (hp1.mem_iff.mpr (List.mem_cons_self _ _))
      have hright : right ≠ .null :=
        hnn right (hp1.mem_iff.mpr (List.mem_cons_of_mem _ (hp2.mem_iff.mpr (List.mem_cons_self _ _))))
      have hparent : (HuffmanNode.node 0 (left.frequency + right.frequency) left right).isLeaf
          = false := by
        cases hpl : (HuffmanNode.node 0 (left.frequency + right.frequency) left right).isLeaf with
        | false => rfl
        | true => exact absurd ((isLeaf_node _ _ _ _).mp hpl).1 hleft
      have hnn2 : ∀ t ∈ pq2 ++ [HuffmanNode.node 0 (left.frequency + right.frequency) left right],
          t ≠ .null := by
        intro t ht
        rcases List.mem_append.mp ht with ht | ht
        · exact hnn t (hp1.mem_iff.mpr (List.mem_cons_of_mem _
            (hp2.mem_iff.mpr (List.mem_cons_of_mem _ ht))))
        · rw [List.mem_singleton.mp ht]
          simp
      obtain ⟨root, hb, hrn, hperm, hleafr⟩ := ih
        (pq2 ++ [HuffmanNode.node 0 (left.frequency + right.frequency) left right])
        (by simp) (by simp only [List.length_append, List.length_singleton]; omega) hnn2
      refine ⟨root, ?_, hrn, ?_, ?_⟩
      · simp only [buildTree, hlen, if_true, h1, h2]
        exact hb
      · refine hperm.trans ?_
        have hq2 : (q.flatMap fun t => keys (leafCodes t)).Perm
            ((left :: right :: pq2).flatMap fun t => keys (leafCodes t)) :=
          List.Perm.flatMap_right _ (hp1.trans (List.Perm.cons left hp2))
        refine List.Perm.trans ?_ hq2.symm
        simp only [List.flatMap_append, List.flatMap_cons, List.flatMap_nil, List.append_nil,
          keys_leafCodes_inner _ _ _ _ hparent]
        rw [← List.append_assoc (keys (leafCodes left))]
        exact List.perm_append_comm
      · intro _
        cases pq2 with
        | nil =>
          simp only [List.nil_append, buildTree_singleton] at hb
          simp only [List.cons.injEq, and_true] at hb
          rw [← hb]
          exact hparent
        | cons a pq2 => exact hleafr (by simp)
    · match q, hq, hlen with
      | [t], _, _ =>
        exact ⟨t, buildTree_singleton tie _ t, hnn t (List.mem_singleton_self t), by simp, by simp⟩
      | _ :: _ :: _, _, h => simp at h


/-! ## The frequency map -/

theorem keys_mapIncr (m : List (Int × Nat)) (k : Int) :
    keys (mapIncr m k) = if k ∈ keys m then keys m else keys m ++ [k] := by
  unfold mapIncr
  split_ifs with h
  · exact keys_mapSet_of_mem m k _ h
  · rw [mapSet_of_not_mem m k _ h]
    simp [keys]

theorem keys_foldl_mapIncr (ds : List Int) (m : List (Int × Nat)) (hm : (keys m).Nodup) :
    (keys (ds.foldl mapIncr m)).Nodup
      ∧ ∀ k, k ∈ keys (ds.foldl mapIncr m) ↔ k ∈ keys m ∨ k ∈ ds := by
  induction ds generalizing m with
  | nil => simpa using hm
  | cons d ds ih =>
    have hnd : (keys (mapIncr m d)).Nodup := by
      rw [keys_mapIncr]
      split_ifs with h
      · exact hm
      · exact List.nodup_append.mpr ⟨hm, List.nodup_singleton d, by
          intro a ha hb
          rw [List.mem_singleton.mp hb] at ha
          exact h ha⟩
    obtain ⟨h1, h2⟩ := ih (mapIncr m d) hnd
    refine ⟨h1, ?_⟩
    intro k
    simp only [List.foldl_cons, h2 k, keys_mapIncr, List.mem_cons]
    split_ifs with h
    · constructor
      · rintro (hk | hk)
        · exact Or.inl hk
        · exact Or.inr (Or.inr hk)
      · rintro (hk | hk | hk)
        · exact Or.inl hk
        · exact Or.inl (hk ▸ h)
        · exact Or.inr hk
    · simp only [List.mem_append, List.mem_singleton]
      tauto

theorem countFrequencies_keys (ds : List Int) :
    (keys (countFrequencies ds)).Nodup ∧ ∀ k, k ∈ keys (countFrequencies ds) ↔ k ∈ ds := by
  obtain ⟨h1, h2⟩ := keys_foldl_mapIncr ds [] (by simp [keys])
  exact ⟨h1, fun k => by simpa [keys] using h2 k⟩

theorem foldl_push_leaves (fr : List (Int × Nat)) (acc : List HuffmanNode) :
    fr.foldl (fun pq pair => pq ++ [HuffmanNode.node pair.1 pair.2 .null .null]) acc
      = acc ++ fr.map fun pair => HuffmanNode.node pair.1 pair.2 .null .null := by
  induction fr generalizing acc with
  | nil => simp
  | cons p fr ih => simp [ih]

theorem flatMap_leaves (fr : List (Int × Nat)) :
    ((fr.map fun pair => HuffmanNode.node pair.1 pair.2 .null .null).flatMap
      fun t => keys (leafCodes t)) = keys fr := by
  induction fr with
  | nil => rfl
  | cons p fr ih =>
    simp only [List.map_cons, List.flatMap_cons, ih, leafCodes_leaf]
    simp [keys]

/-! ## The code table -/

/-- What the round trip needs of a code table for the deltas `ds`: distinct keys, a code
for exactly the values of `ds`, no code an initial segment of another, no empty code. -/
theorem buildHuffmanCodes_spec (tie : List HuffmanNode → Nat) (ds : List Int) (hds : ds ≠ []) :
    (keys (buildHuffmanCodes tie ds)).Nodup
      ∧ (∀ k, k ∈ keys (buildHuffmanCodes tie ds) ↔ k ∈ ds)
      ∧ PrefixFree (buildHuffmanCodes tie ds)
      ∧ ∀ p ∈ buildHuffmanCodes tie ds, p.2 ≠ [] := by
  obtain ⟨hnd, hmem⟩ := countFrequencies_keys ds
  unfold buildHuffmanCodes
  simp only
  split
  · rename_i value n hfr
    rw [hfr] at hmem
    refine ⟨by simp [keys], ?_, by simp [PrefixFree], by simp⟩
    intro k
    rw [← hmem k]
    simp [keys]
  · rename_i hfr
    rw [foldl_push_leaves, List.nil_append]
    have hq : (List.map (fun pair : Int × Nat => HuffmanNode.node pair.1 pair.2 .null .null)
        (countFrequencies ds)) ≠ [] := by
      intro e
      rw [List.map_eq_nil_iff] at e
      obtain ⟨d, hd⟩ := List.exists_mem_of_ne_nil ds hds
      have := (hmem d).mpr hd
      rw [e] at this
      simp [keys] at this
    obtain ⟨root, hb, _, hperm, hleaf⟩ := buildTree_spec tie _ _ hq (Nat.le_succ _)
      (by
        intro t ht
        obtain ⟨p, _, rfl⟩ := List.mem_map.mp ht
        simp)
    rw [flatMap_leaves] at hperm
    have hlen : 2 ≤ (List.map (fun pair : Int × Nat => HuffmanNode.node pair.1 pair.2 .null .null)
        (countFrequencies ds)).length := by
      rw [List.length_map]
      match hc : countFrequencies ds, hfr with
      | [], _ =>
        rw [hc] at hq
        simp at hq
      | [(v, n)], h => exact absurd rfl (h v n)
      | _ :: _ :: _, _ => simp
    have hrl := hleaf hlen
    rw [hb, popTop_singleton]
    simp only
    have hkn : (keys (leafCodes root)).Nodup := hperm.nodup_iff.mpr hnd
    have hg : generateCodes root [] [] = leafCodes root := by
      rw [generateCodes_eq root [] [] (by simpa [keys] using hkn)]
      simp only [List.nil_append, Prod.mk.eta]
      exact List.map_id _
    rw [hg]
    refine ⟨hkn, fun k => by rw [hperm.mem_iff, hmem k], leafCodes_prefixFree root, ?_⟩
    intro p hp
    cases root with
    | null => simp [leafCodes] at hp
    | node v f l r =>
      rw [leafCodes_inner v f l r hrl] at hp
      rcases List.mem_append.mp hp with h | h
      · obtain ⟨a, _, rfl⟩ := List.mem_map.mp h
        simp
      · obtain ⟨a, _, rfl⟩ := List.mem_map.mp h
        simp


/-! ## The tree rebuilt by `decompress` -/

theorem walk_null (p : List Bool) : walk .null p = .null := by
  cases p <;> rfl

theorem walk_nil (t : HuffmanNode) : walk t [] = t := by
  cases t <;> rfl

theorem walk_append (t : HuffmanNode) (p q : List Bool) :
    walk t (p ++ q) = walk (walk t p) q := by
  induction p generalizing t with
  | nil => simp [walk_nil]
  | cons b p ih =>
    cases t with
    | null => simp [walk, walk_null]
    | node v f l r => simp [walk, ih]

theorem walk_leaf (v : Int) (f : Nat) (q : List Bool) (hq : q ≠ []) :
    walk (.node v f .null .null) q = .null := by
  cases q with
  | nil => exact absurd rfl hq
  | cons b q => cases b <;> simp [walk, walk_null]

theorem insertCode_ne_null (v : Int) (c : List Bool) (t : HuffmanNode) :
    insertCode v c t ≠ .null := by
  cases c with
  | nil => cases t <;> simp [insertCode]
  | cons b c => cases t <;> cases b <;> simp [insertCode]

theorem walk_insertCode_self (v : Int) (c : List Bool) (t : HuffmanNode)
    (h : walk t c = .null) : walk (insertCode v c t) c = .node v 0 .null .null := by
  induction c generalizing t with
  | nil =>
    simp only [walk] at h
    subst h
    rfl
  | cons b c ih =>
    cases t with
    | null => cases b <;> simp [insertCode, walk, ih .null (walk_null c)]
    | node v0 f l r =>
      cases b
      · simp only [walk, Bool.false_eq_true, if_false] at h
        simp [insertCode, walk, ih l h]
      · simp only [walk, if_true] at h
        simp [insertCode, walk, ih r h]

theorem walk_insertCode_other (v : Int) (c : List Bool) (t : HuffmanNode) (p : List Bool)
    (h1 : ¬ c <+: p) (h2 : ¬ p <+: c) : walk (insertCode v c t) p = walk t p := by
  induction c generalizing t p with
  | nil => exact absurd List.nil_prefix h1
  | cons b c ih =>
    cases p with
    | nil => exact absurd List.nil_prefix h2
    | cons b1 p =>
      by_cases hb : b = b1
      · subst hb
        have h1a : ¬ c <+: p := fun h => h1 ((List.cons_prefix_cons).mpr ⟨rfl, h⟩)
        have h2a : ¬ p <+: c := fun h => h2 ((List.cons_prefix_cons).mpr ⟨rfl, h⟩)
        cases t with
        | null => cases b <;> simp [insertCode, walk, ih .null p h1a h2a, walk_null]
        | node v0 f l r => cases b <;> simp [insertCode, walk, ih _ p h1a h2a]
      · cases t with
        | null =>
          cases b <;> cases b1 <;> simp_all [insertCode, walk, walk_null]
        | node v0 f l r =>
          cases b <;> cases b1 <;> simp_all [insertCode, walk]

theorem walk_insertCode_inner (v : Int) (p q : List Bool) (t : HuffmanNode) (hq : q ≠ []) :
    ∃ v1 f l r, walk (insertCode v (p ++ q) t) p = .node v1 f l r
      ∧ (HuffmanNode.node v1 f l r).isLeaf = false := by
  induction p generalizing t with
  | nil =>
    cases q with
    | nil => exact absurd rfl hq
    | cons b q =>
      have hn := insertCode_ne_null v q
      cases t with
      | null =>
        cases b
        · refine ⟨0, 0, insertCode v q .null, .null, by simp [insertCode, walk], ?_⟩
          cases h : insertCode v q .null with
          | null => exact absurd h (hn _)
          | node _ _ _ _ => rfl
        · refine ⟨0, 0, .null, insertCode v q .null, by simp [insertCode, walk], ?_⟩
          cases h : insertCode v q .null with
          | null => exact absurd h (hn _)
          | node _ _ _ _ => rfl
      | node v0 f l r =>
        cases b
        · refine ⟨v0, f, insertCode v q l, r, by simp [insertCode, walk], ?_⟩
          cases h : insertCode v q l with
          | null => exact absurd h (hn _)
          | node _ _ _ _ => rfl
        · refine ⟨v0, f, l, insertCode v q r, by simp [insertCode, walk], ?_⟩
          cases h : insertCode v q r with
          | null => exact absurd h (hn _)
          | node _ _ _ _ => cases l <;> rfl
  | cons b p ih =>
    cases t with
    | null =>
      cases b
      · simpa [insertCode, walk] using ih .null
      · simpa [insertCode, walk] using ih .null
    | node v0 f l r =>
      cases b
      · simpa [insertCode, walk] using ih l
      · simpa [insertCode, walk] using ih r

theorem walk_insertCode_keeps (v : Int) (c : List Bool) (t : HuffmanNode) (p : List Bool)
    (h : ∃ v1 f l r, walk t p = .node v1 f l r ∧ (HuffmanNode.node v1 f l r).isLeaf = false) :
    ∃ v1 f l r, walk (insertCode v c t) p = .node v1 f l r
      ∧ (HuffmanNode.node v1 f l r).isLeaf = false := by
  induction p generalizing t c with
  | nil =>
    obtain ⟨v1, f, l, r, ht, hl⟩ := h
    simp only [walk] at ht
    subst ht
    cases c with
    | nil => exact ⟨v, f, l, r, rfl, by rw [← hl]; cases l <;> cases r <;> rfl⟩
    | cons b c =>
      have hn := insertCode_ne_null v c
      cases b
      · refine ⟨v1, f, insertCode v c l, r, by simp [insertCode, walk], ?_⟩
        cases h : insertCode v c l with
        | null => exact absurd h (hn _)
        | node _ _ _ _ => rfl
      · refine ⟨v1, f, l, insertCode v c r, by simp [insertCode, walk], ?_⟩
        cases h : insertCode v c r with
        | null => exact absurd h (hn _)
        | node _ _ _ _ => cases l <;> rfl
  | cons b1 p ih =>
    cases t with
    | null =>
      obtain ⟨v1, f, l, r, ht, _⟩ := h
      simp [walk] at ht
    | node v0 f0 l0 r0 =>
      cases c with
      | nil => simpa [insertCode, walk] using h
      | cons b c =>
        cases b <;> cases b1
        · simpa [insertCode, walk] using ih c l0 (by simpa [walk] using h)
        · simpa [insertCode, walk] using h
        · simpa [insertCode, walk] using h
        · simpa [insertCode, walk] using ih c r0 (by simpa [walk] using h)


theorem trieInv_init : TrieInv (.node 0 0 .null .null) [] := by
  refine ⟨fun p hp _ => walk_leaf 0 0 p hp, ?_, ?_⟩
  · intro e he
    simp at he
  · intro e he
    simp at he

theorem trieInv_insert (t : HuffmanNode) (S : List (Int × List Bool)) (e : Int × List Bool)
    (hinv : TrieInv t S) (he : e.2 ≠ [])
    (hfree : ∀ e1 ∈ S, ¬ e1.2 <+: e.2 ∧ ¬ e.2 <+: e1.2) :
    TrieInv (insertCode e.1 e.2 t) (S ++ [e]) := by
  obtain ⟨ha, hb, hc⟩ := hinv
  have hnull : walk t e.2 = .null := ha e.2 he fun e1 h1 => (hfree e1 h1).2
  have hself := walk_insertCode_self e.1 e.2 t hnull
  refine ⟨?_, ?_, ?_⟩
  · intro p hp hno
    have hpe : ¬ p <+: e.2 := hno e (by simp)
    by_cases hep : e.2 <+: p
    · obtain ⟨q, hq⟩ := hep
      have hqne : q ≠ [] := by
        intro h0
        rw [h0, List.append_nil] at hq
        exact hpe (hq ▸ List.prefix_refl _)
      rw [← hq, walk_append, hself]
      exact walk_leaf _ _ q hqne
    · rw [walk_insertCode_other e.1 e.2 t p hep hpe]
      exact ha p hp fun e1 h1 => hno e1 (List.mem_append_left _ h1)
  · intro e1 h1
    rcases List.mem_append.mp h1 with h1 | h1
    · rw [walk_insertCode_other e.1 e.2 t e1.2 (hfree e1 h1).2 (hfree e1 h1).1]
      exact hb e1 h1
    · rw [List.mem_singleton.mp h1]
      exact hself
  · intro e1 h1 p q hpq hq
    rcases List.mem_append.mp h1 with h1 | h1
    · exact walk_insertCode_keeps e.1 e.2 t p (hc e1 h1 p q hpq hq)
    · rw [List.mem_singleton.mp h1] at hpq
      rw [hpq]
      exact walk_insertCode_inner e.1 p q t hq

theorem trieInv_foldl (rest S : List (Int × List Bool)) (t : HuffmanNode)
    (hinv : TrieInv t S) (hfree : PrefixFree (S ++ rest)) (hne : ∀ e ∈ rest, e.2 ≠ []) :
    TrieInv (rest.foldl (fun root pair => insertCode pair.1 pair.2 root) t) (S ++ rest) := by
  induction rest generalizing S t with
  | nil => simpa using hinv
  | cons e rest ih =>
    have hstep : TrieInv (insertCode e.1 e.2 t) (S ++ [e]) := by
      refine trieInv_insert t S e hinv (hne e (List.mem_cons_self _ _)) ?_
      intro e1 h1
      unfold PrefixFree at hfree
      have := (List.pairwise_append.mp hfree).2.2 e1 h1 e (List.mem_cons_self _ _)
      exact this
    have := ih (S ++ [e]) (insertCode e.1 e.2 t) hstep (by simpa using hfree)
      (fun e1 h1 => hne e1 (List.mem_cons_of_mem _ h1))
    simpa using this

theorem prefixFree_perm (T1 T2 : List (Int × List Bool)) (hp : T1.Perm T2)
    (h : PrefixFree T2) : PrefixFree T1 := by
  unfold PrefixFree at *
  exact (hp.pairwise_iff (fun {a b} hab => ⟨hab.2, hab.1⟩)).mpr h

theorem rebuildTree_inv (T : List (Int × List Bool)) (hfree : PrefixFree T)
    (hne : ∀ e ∈ T, e.2 ≠ []) : TrieInv (rebuildTree T) T := by
  have := trieInv_foldl T [] _ trieInv_init (by simpa using hfree) hne
  simpa [rebuildTree] using this

/-! ## The decoding loops -/

theorem decodeByte_length (root : HuffmanNode) (N : Nat) (bits : List Bool)
    (cur : HuffmanNode) (dv : List Int) (h : dv.length < N)
    (c1 : HuffmanNode) (d1 : List Int)
    (hr : decodeByte root N bits cur dv = .returned (c1, d1)) :
    d1.length ≤ N ∧ dv <+: d1 := by
  induction bits generalizing cur dv with
  | nil =>
    simp only [decodeByte, Outcome.returned.injEq, Prod.mk.injEq] at hr
    obtain ⟨_, rfl⟩ := hr
    exact ⟨by omega, List.prefix_refl _⟩
  | cons b bits ih =>
    unfold decodeByte at hr
    split at hr
    · simp at hr
    · split at hr
      · simp at hr
      · split_ifs at hr with h1 h2
        · simp only [Outcome.returned.injEq, Prod.mk.injEq] at hr
          obtain ⟨_, rfl⟩ := hr
          exact ⟨by omega, List.prefix_append _ _⟩
        · refine (fun hh => ⟨hh.1, (List.prefix_append _ _).trans hh.2⟩) (ih _ _ ?_ hr)
          simp only [List.length_append, List.length_singleton] at h2 ⊢
          omega
        · exact ih _ _ h hr


theorem decodeByte_step_null (root : HuffmanNode) (N : Nat) (b : Bool) (bits : List Bool)
    (v0 : Int) (f0 : Nat) (l r : HuffmanNode) (dv : List Int)
    (h : (if b then r else l) = .null) :
    decodeByte root N (b :: bits) (.node v0 f0 l r) dv = .undefined := by
  simp only [decodeByte, h]

theorem decodeByte_step_leaf (root : HuffmanNode) (N : Nat) (b : Bool) (bits : List Bool)
    (v0 : Int) (f0 : Nat) (l r : HuffmanNode) (dv : List Int) (v : Int) (f : Nat)
    (h : (if b then r else l) = .node v f .null .null) :
    decodeByte root N (b :: bits) (.node v0 f0 l r) dv
      = if (dv ++ [v]).length = N then .returned (root, dv ++ [v])
        else decodeByte root N bits root (dv ++ [v]) := by
  simp only [decodeByte, h, HuffmanNode.isLeaf, if_true]

theorem decodeByte_step_inner (root : HuffmanNode) (N : Nat) (b : Bool) (bits : List Bool)
    (v0 : Int) (f0 : Nat) (l r : HuffmanNode) (dv : List Int) (v : Int) (f : Nat)
    (l1 r1 : HuffmanNode) (h : (if b then r else l) = .node v f l1 r1)
    (hl : (HuffmanNode.node v f l1 r1).isLeaf = false) :
    decodeByte root N (b :: bits) (.node v0 f0 l r) dv
      = decodeByte root N bits (.node v f l1 r1) dv := by
  simp only [decodeByte, h, hl, Bool.false_eq_true, if_false]

theorem decodeByte_append (root : HuffmanNode) (N : Nat) (bs1 bs2 : List Bool)
    (cur : HuffmanNode) (dv : List Int) (h : dv.length < N) :
    decodeByte root N (bs1 ++ bs2) cur dv
      = (decodeByte root N bs1 cur dv).bind fun st =>
          if st.2.length = N then .returned st else decodeByte root N bs2 st.1 st.2 := by
  induction bs1 generalizing cur dv with
  | nil =>
    have : dv.length ≠ N := by omega
    simp [decodeByte, Outcome.bind, this]
  | cons b bs1 ih =>
    cases cur with
    | null => simp [decodeByte, Outcome.bind]
    | node v0 f0 l r =>
      cases hc : (if b then r else l) with
      | null =>
        rw [List.cons_append, decodeByte_step_null _ _ _ _ _ _ _ _ _ hc,
          decodeByte_step_null _ _ _ _ _ _ _ _ _ hc]
        rfl
      | node v f l1 r1 =>
        cases hl : (HuffmanNode.node v f l1 r1).isLeaf with
        | false =>
          rw [List.cons_append, decodeByte_step_inner _ _ _ _ _ _ _ _ _ _ _ _ _ hc hl,
            decodeByte_step_inner _ _ _ _ _ _ _ _ _ _ _ _ _ hc hl]
          exact ih _ _ h
        | true =>
          obtain ⟨h1, h2⟩ := (isLeaf_node v f l1 r1).mp hl
          subst h1 h2
          rw [List.cons_append, decodeByte_step_leaf _ _ _ _ _ _ _ _ _ _ _ hc,
            decodeByte_step_leaf _ _ _ _ _ _ _ _ _ _ _ hc]
          by_cases hN : (dv ++ [v]).length = N
          · simp [hN, Outcome.bind]
          · simp only [hN, if_false]
            refine ih _ _ ?_
            simp only [List.length_append, List.length_singleton] at hN ⊢
            omega

theorem byteBits_length (b : Nat) : (byteBits b).length = 8 := by
  simp [byteBits]

theorem decodeLoop_eq (root : HuffmanNode) (N : Nat) (bytes : List Nat)
    (cur : HuffmanNode) (dv : List Int) (h : dv.length < N) :
    decodeLoop root N bytes cur dv
      = (decodeByte root N (bytes.flatMap byteBits) cur dv).map Prod.snd := by
  induction bytes generalizing cur dv with
  | nil => simp [decodeLoop, decodeByte, Outcome.map]
  | cons b bytes ih =>
    rw [List.flatMap_cons, decodeByte_append _ _ _ _ _ _ h]
    unfold decodeLoop
    cases hd : decodeByte root N (byteBits b) cur dv with
    | undefined => simp [Outcome.bind, Outcome.map]
    | returned st =>
      obtain ⟨c1, d1⟩ := st
      obtain ⟨hle, _⟩ := decodeByte_length _ _ _ _ _ h c1 d1 hd
      by_cases hN : d1.length = N
      · simp [Outcome.bind, Outcome.map, hN]
      · simp only [Outcome.bind, hN, if_false]
        exact ih c1 d1 (by omega)

/-! ## Decoding the codes of a table with the rebuilt tree -/

theorem walk_snoc (t : HuffmanNode) (p : List Bool) (b : Bool) (v : Int) (f : Nat)
    (l r : HuffmanNode) (h : walk t p = .node v f l r) :
    walk t (p ++ [b]) = if b then r else l := by
  rw [walk_append, h]
  simp [walk, walk_nil]

theorem decode_code (root : HuffmanNode) (T : List (Int × List Bool)) (N : Nat)
    (hinv : TrieInv root T) (e : Int × List Bool) (he : e ∈ T)
    (rest : List Bool) (dv : List Int) (q p : List Bool) (hpq : e.2 = p ++ q) (hq : q ≠ []) :
    decodeByte root N (q ++ rest) (walk root p) dv
      = if (dv ++ [e.1]).length = N then .returned (root, dv ++ [e.1])
        else decodeByte root N rest root (dv ++ [e.1]) := by
  induction q generalizing p with
  | nil => exact absurd rfl hq
  | cons b q ih =>
    obtain ⟨v1, f1, l1, r1, hw, _⟩ := hinv.2.2 e he p (b :: q) hpq hq
    have hs := walk_snoc root p b v1 f1 l1 r1 hw
    rw [hw, List.cons_append]
    by_cases hq0 : q = []
    · subst hq0
      have hleaf : walk root (p ++ [b]) = .node e.1 0 .null .null := by
        rw [← hpq]
        exact hinv.2.1 e he
      rw [hs] at hleaf
      rw [decodeByte_step_leaf _ _ _ _ _ _ _ _ _ _ _ hleaf]
      rfl
    · obtain ⟨v2, f2, l2, r2, hw2, hl2⟩ := hinv.2.2 e he (p ++ [b]) q (by simp [hpq]) hq0
      have hc : (if b then r1 else l1) = .node v2 f2 l2 r2 := by rw [← hs, hw2]
      rw [decodeByte_step_inner _ _ _ _ _ _ _ _ _ _ _ _ _ hc hl2, ← hw2]
      exact ih (p ++ [b]) (by simp [hpq]) hq0

theorem decode_partial (root : HuffmanNode) (T : List (Int × List Bool)) (N : Nat)
    (hinv : TrieInv root T) (e : Int × List Bool) (he : e ∈ T)
    (dv : List Int) (p2 p1 q : List Bool) (hpq : e.2 = p1 ++ p2 ++ q) (hq : q ≠ []) :
    decodeByte root N p2 (walk root p1) dv = .returned (walk root (p1 ++ p2), dv) := by
  induction p2 generalizing p1 with
  | nil => simp [decodeByte]
  | cons b p2 ih =>
    obtain ⟨v1, f1, l1, r1, hw, _⟩ := hinv.2.2 e he p1 (b :: p2 ++ q)
      (by simp [hpq]) (by simp)
    have hs := walk_snoc root p1 b v1 f1 l1 r1 hw
    obtain ⟨v2, f2, l2, r2, hw2, hl2⟩ := hinv.2.2 e he (p1 ++ [b]) (p2 ++ q)
      (by simp [hpq]) (by simp [hq])
    have hc : (if b then r1 else l1) = .node v2 f2 l2 r2 := by rw [← hs, hw2]
    rw [hw, decodeByte_step_inner _ _ _ _ _ _ _ _ _ _ _ _ _ hc hl2, ← hw2]
    have := ih (p1 ++ [b]) (by simp [hpq])
    simpa using this


theorem encodeBits_cons (T : List (Int × List Bool)) (d : Int) (ds : List Int) :
    encodeBits T (d :: ds) = mapGet T d [] ++ encodeBits T ds := by
  simp [encodeBits]

theorem decode_all (root : HuffmanNode) (T T1 : List (Int × List Bool)) (N : Nat)
    (hinv : TrieInv root T1) (hne : ∀ e ∈ T1, e.2 ≠ []) (rest : List Bool)
    (ds : List Int) (dv : List Int) (hmem : ∀ d ∈ ds, (d, mapGet T d []) ∈ T1)
    (hds : ds ≠ []) (hN : dv.length + ds.length = N) :
    decodeByte root N (encodeBits T ds ++ rest) root dv = .returned (root, dv ++ ds) := by
  induction ds generalizing dv with
  | nil => exact absurd rfl hds
  | cons d ds ih =>
    have he := hmem d (List.mem_cons_self _ _)
    have hstep := decode_code root T1 N hinv (d, mapGet T d []) he
      (encodeBits T ds ++ rest) dv (mapGet T d []) [] rfl (hne _ he)
    rw [walk_nil] at hstep
    rw [encodeBits_cons, List.append_assoc, hstep]
    simp only [List.length_cons] at hN
    by_cases hds0 : ds = []
    · subst hds0
      have : (dv ++ [d]).length = N := by
        simp only [List.length_nil, List.length_append, List.length_singleton] at hN ⊢
        omega
      simp [this]
    · have hlen : 0 < ds.length := List.length_pos.mpr hds0
      have : (dv ++ [d]).length ≠ N := by simp; omega
      simp only [this, if_false]
      rw [ih (dv ++ [d]) (fun x hx => hmem x (List.mem_cons_of_mem _ hx)) hds0
        (by simp; omega)]
      simp

theorem decode_truncated (root : HuffmanNode) (T T1 : List (Int × List Bool)) (N : Nat)
    (hinv : TrieInv root T1) (hne : ∀ e ∈ T1, e.2 ≠ [])
    (ds : List Int) (dv : List Int) (P : List Bool)
    (hmem : ∀ d ∈ ds, (d, mapGet T d []) ∈ T1)
    (hN : dv.length + ds.length ≤ N) (hP : P <+: encodeBits T ds)
    (hlt : P.length < (encodeBits T ds).length) :
    ∃ k cur, k < ds.length ∧ decodeByte root N P root dv = .returned (cur, dv ++ ds.take k) := by
  induction ds generalizing dv P with
  | nil => simp [encodeBits] at hlt
  | cons d ds ih =>
    have he := hmem d (List.mem_cons_self _ _)
    rw [encodeBits_cons] at hP hlt
    by_cases hc : mapGet T d [] <+: P
    · obtain ⟨P1, rfl⟩ := hc
      have hP1 : P1 <+: encodeBits T ds := (List.prefix_append_right_inj _).mp hP
      have hlt1 : P1.length < (encodeBits T ds).length := by
        simp only [List.length_append] at hlt
        omega
      have hds0 : ds ≠ [] := by
        intro h0
        subst h0
        simp [encodeBits] at hlt1
      have hlen : 0 < ds.length := List.length_pos.mpr hds0
      have hstep := decode_code root T1 N hinv (d, mapGet T d []) he
        P1 dv (mapGet T d []) [] rfl (hne _ he)
      rw [walk_nil] at hstep
      simp only [List.length_cons] at hN
      have : (dv ++ [d]).length ≠ N := by simp; omega
      rw [hstep]
      simp only [this, if_false]
      obtain ⟨k, cur, hk, hdec⟩ := ih (dv ++ [d]) P1
        (fun x hx => hmem x (List.mem_cons_of_mem _ hx)) (by simp; omega) hP1 hlt1
      exact ⟨k + 1, cur, by simp; omega, by simpa using hdec⟩
    · have hlen : P.length < (mapGet T d []).length := by
        by_contra hge
        exact hc (List.prefix_of_prefix_length_le (List.prefix_append _ _) hP (by omega))
      have hpc : P <+: mapGet T d [] :=
        List.prefix_of_prefix_length_le hP (List.prefix_append _ _) (by omega)
      obtain ⟨q, hq⟩ := hpc
      have hq0 : q ≠ [] := by
        intro h0
        rw [h0, List.append_nil] at hq
        rw [hq] at hlen
        omega
      have := decode_partial root T1 N hinv (d, mapGet T d []) he dv P [] q
        (by simp [hq]) hq0
      rw [walk_nil] at this
      exact ⟨0, _, by simp, by simpa using this⟩

/-! ## Bit packing -/

theorem byteBits_pendVal :
    ∀ b1 b2 b3 b4 b5 b6 b7 b8 : Bool,
      byteBits (pendVal [b1, b2, b3, b4, b5, b6, b7, b8]) = [b1, b2, b3, b4, b5, b6, b7, b8] := by
  decide

theorem byteBits_partial (pend : List Bool) (h : pend.length < 8) :
    byteBits ((pendVal pend <<< (8 - pend.length)) % 256)
      = pend ++ List.replicate (8 - pend.length) false := by
  match pend, h with
  | [], _ => decide
  | [b1], _ => revert b1; decide
  | [b1, b2], _ => revert b1 b2; decide
  | [b1, b2, b3], _ => revert b1 b2 b3; decide
  | [b1, b2, b3, b4], _ => revert b1 b2 b3 b4; decide
  | [b1, b2, b3, b4, b5], _ => revert b1 b2 b3 b4 b5; decide
  | [b1, b2, b3, b4, b5, b6], _ => revert b1 b2 b3 b4 b5 b6; decide
  | [b1, b2, b3, b4, b5, b6, b7], _ => revert b1 b2 b3 b4 b5 b6 b7; decide
  | _ :: _ :: _ :: _ :: _ :: _ :: _ :: _ :: _, h => simp at h; omega


theorem byteBits_pendVal_list (l : List Bool) (h : l.length = 8) :
    byteBits (pendVal l) = l := by
  match l, h with
  | [b1, b2, b3, b4, b5, b6, b7, b8], _ => exact byteBits_pendVal b1 b2 b3 b4 b5 b6 b7 b8

theorem pendVal_snoc (pend : List Bool) (bit : Bool) :
    pendVal (pend ++ [bit]) = ((pendVal pend <<< 1) ||| (if bit then 1 else 0)) % 256 := by
  simp [pendVal, List.foldl_append]

theorem pack_foldl (bits : List Bool) (out : List Nat) (pend : List Bool)
    (h : pend.length < 8) :
    ∃ out1 pend1, bits.foldl packStep (out, pendVal pend, pend.length)
        = (out1, pendVal pend1, pend1.length)
      ∧ pend1.length < 8
      ∧ out1.flatMap byteBits ++ pend1 = out.flatMap byteBits ++ pend ++ bits := by
  induction bits generalizing out pend with
  | nil => exact ⟨out, pend, rfl, h, by simp⟩
  | cons bit bits ih =>
    by_cases h8 : pend.length + 1 = 8
    · have hstep : packStep (out, pendVal pend, pend.length) bit
          = (out ++ [pendVal (pend ++ [bit])], pendVal [], ([] : List Bool).length) := by
        simp only [packStep, h8, if_true, pendVal_snoc]
        rfl
      obtain ⟨out1, pend1, h1, h2, h3⟩ := ih (out ++ [pendVal (pend ++ [bit])]) [] (by simp)
      refine ⟨out1, pend1, ?_, h2, ?_⟩
      · rw [List.foldl_cons, hstep, h1]
      · rw [h3]
        simp [byteBits_pendVal_list (pend ++ [bit]) (by simpa using h8)]
    · have hstep : packStep (out, pendVal pend, pend.length) bit
          = (out, pendVal (pend ++ [bit]), (pend ++ [bit]).length) := by
        simp only [packStep, h8, if_false, pendVal_snoc, List.length_append,
          List.length_singleton]
      obtain ⟨out1, pend1, h1, h2, h3⟩ := ih out (pend ++ [bit]) (by simp; omega)
      refine ⟨out1, pend1, ?_, h2, ?_⟩
      · rw [List.foldl_cons, hstep, h1]
      · rw [h3]
        simp

theorem packBits_spec (bits : List Bool) :
    ∃ pad, pad < 8 ∧ (packBits bits).flatMap byteBits = bits ++ List.replicate pad false := by
  obtain ⟨out1, pend1, h1, h2, h3⟩ := pack_foldl bits [] [] (by simp)
  have h1a : bits.foldl packStep ([], 0, 0) = (out1, pendVal pend1, pend1.length) := h1
  simp only [List.flatMap_nil, List.nil_append] at h3
  unfold packBits
  simp only [h1a]
  by_cases hp : pend1.length > 0
  · refine ⟨8 - pend1.length, by omega, ?_⟩
    simp only [hp, if_true, List.flatMap_append, List.flatMap_cons, List.flatMap_nil,
      List.append_nil, byteBits_partial pend1 h2]
    rw [← List.append_assoc, h3]
  · refine ⟨0, by omega, ?_⟩
    have : pend1 = [] := List.length_eq_zero.mp (by omega)
    subst this
    simpa [hp] using h3

theorem flatMap_byteBits_length (bytes : List Nat) :
    (bytes.flatMap byteBits).length = 8 * bytes.length := by
  induction bytes with
  | nil => rfl
  | cons b bytes ih =>
    simp only [List.flatMap_cons, List.length_append, byteBits_length, ih, List.length_cons]
    omega

theorem flatMap_byteBits_take (bytes : List Nat) (j : Nat) :
    (bytes.take j).flatMap byteBits = (bytes.flatMap byteBits).take (8 * j) := by
  induction bytes generalizing j with
  | nil => simp
  | cons b bytes ih =>
    cases j with
    | zero => simp
    | succ j =>
      simp only [List.take_succ_cons, List.flatMap_cons, ih j]
      rw [List.take_append_eq_append_take, byteBits_length]
      have h1 : (byteBits b).take (8 * (j + 1)) = byteBits b :=
        List.take_of_length_le (by rw [byteBits_length]; omega)
      rw [h1]
      congr 2

/-! ## The header -/

theorem and_255 (x : Nat) : x &&& 0xFF = x % 256 := by
  have := Nat.and_pow_two_sub_one_eq_mod x 8
  simpa using this

theorem header_eq (n : Nat) :
    header n = [0x44, 0x48, n / 16777216 % 256, n / 65536 % 256, n / 256 % 256, n % 256] := by
  simp only [header, and_255, Nat.shiftRight_eq_div_pow, Nat.mod_mod]
  rfl

theorem be32_read (b2 b3 b4 b5 : Nat) (h3 : b3 < 256) (h4 : b4 < 256) (h5 : b5 < 256) :
    (b2 <<< 24) ||| (b3 <<< 16) ||| (b4 <<< 8) ||| b5
      = 16777216 * b2 + 65536 * b3 + 256 * b4 + b5 := by
  rw [Nat.or_assoc, Nat.or_assoc]
  simp only [Nat.shiftLeft_eq]
  have e1 : b4 * 2 ^ 8 ||| b5 = 2 ^ 8 * b4 + b5 := by
    rw [Nat.mul_comm]
    exact (Nat.mul_add_lt_is_or (i := 8) (by omega) b4).symm
  rw [e1]
  have e2 : b3 * 2 ^ 16 ||| (2 ^ 8 * b4 + b5) = 2 ^ 16 * b3 + (2 ^ 8 * b4 + b5) := by
    rw [Nat.mul_comm]
    exact (Nat.mul_add_lt_is_or (i := 16) (by omega) b3).symm
  rw [e2]
  have e3 : b2 * 2 ^ 24 ||| (2 ^ 16 * b3 + (2 ^ 8 * b4 + b5))
      = 2 ^ 24 * b2 + (2 ^ 16 * b3 + (2 ^ 8 * b4 + b5)) := by
    rw [Nat.mul_comm]
    exact (Nat.mul_add_lt_is_or (i := 24) (by omega) b2).symm
  rw [e3]
  omega


/-! ## Buffers -/

theorem bytesToSamples_samplesToBytes (s : List Nat) (hs : ∀ x ∈ s, x < 65536) :
    bytesToSamples (samplesToBytes s) = s := by
  induction s with
  | nil => rfl
  | cons x s ih =>
    have hx := hs x (List.mem_cons_self _ _)
    simp only [samplesToBytes, bytesToSamples, ih fun y hy => hs y (List.mem_cons_of_mem _ hy)]
    congr 1
    omega

theorem samplesToBytes_length (s : List Nat) : (samplesToBytes s).length = 2 * s.length := by
  induction s with
  | nil => rfl
  | cons x s ih =>
    simp only [samplesToBytes, List.length_cons, ih]
    omega

theorem samplesToBytes_take (s : List Nat) (k : Nat) :
    samplesToBytes (s.take k) = (samplesToBytes s).take (2 * k) := by
  induction s generalizing k with
  | nil => simp [samplesToBytes]
  | cons x s ih =>
    cases k with
    | zero => simp [samplesToBytes]
    | succ k =>
      have : 2 * (k + 1) = 2 * k + 1 + 1 := by omega
      simp only [List.take_succ_cons, samplesToBytes, ih k, this]

theorem mapGet_mem {V : Type} (m : List (Int × V)) (k : Int) (dflt : V) (h : k ∈ keys m) :
    (k, mapGet m k dflt) ∈ m := by
  induction m with
  | nil => simp [keys] at h
  | cons p m ih =>
    obtain ⟨k1, v1⟩ := p
    by_cases hk : k1 = k
    · subst hk
      simp [mapGet, mapFind]
    · simp only [keys, List.map_cons, List.mem_cons] at h
      have hm : k ∈ keys m := by
        rcases h with h | h
        · exact absurd h.symm hk
        · exact h
      have := ih hm
      simp only [mapGet, mapFind, hk, if_false] at this ⊢
      exact List.mem_cons_of_mem _ this

/-! ## `compress` and `decompress` on well-formed input -/

theorem compress_samples (tie : List HuffmanNode → Nat) (self : DHC) (s : List Nat)
    (hne : s ≠ []) (hs : ∀ x ∈ s, x < 65536) (hlen : s.length < 2 ^ 32) :
    ∃ ds, computeDeltaValues s = .returned ds ∧ ds.length = s.length
      ∧ reconstructFromDelta ds = .returned s
      ∧ compress tie self (samplesToBytes s)
          = .returned (⟨true, header s.length
              ++ packBits (encodeBits (buildHuffmanCodes tie ds) ds)⟩,
            ⟨ds, buildHuffmanCodes tie ds⟩) := by
  obtain ⟨ds, h1, h2, h3⟩ := reconstruct_compute s hne hs
  refine ⟨ds, h1, h2, h3, ?_⟩
  have hl0 : ¬ (samplesToBytes s).length = 0 := by
    rw [samplesToBytes_length]
    have := List.length_pos.mpr hne
    omega
  have hl1 : ¬ (samplesToBytes s).length % 2 = 1 := by
    rw [samplesToBytes_length]
    omega
  simp only [compress, hl0, hl1, if_false, bytesToSamples_samplesToBytes s hs, h1,
    Nat.mod_eq_of_lt hlen]

theorem decompress_header (d : DHC) (n : Nat) (payload : List Nat) (cap : Nat)
    (hn : n < 2 ^ 31) (hcap : 2 * n ≤ cap) :
    decompress d (header n ++ payload) cap
      = match decodeLoop (rebuildTree d.lastHuffmanCodes) n payload
          (rebuildTree d.lastHuffmanCodes) [] with
        | .undefined => .undefined
        | .returned deltaValues =>
          match reconstructFromDelta deltaValues with
          | .undefined => .undefined
          | .returned originalData => .returned ⟨true, samplesToBytes originalData⟩ := by
  have hmagic : ¬ ((0x44 <<< 8) ||| 0x48) % 2 ^ 16 ≠ MAGIC := by decide
  have hsize : ((n / 16777216 % 256) <<< 24 ||| (n / 65536 % 256) <<< 16
      ||| (n / 256 % 256) <<< 8 ||| n % 256) % 2 ^ 32 = n := by
    rw [be32_read _ _ _ _ (Nat.mod_lt _ (by norm_num)) (Nat.mod_lt _ (by norm_num))
      (Nat.mod_lt _ (by norm_num))]
    omega
  have hc : ¬ cap < n * 2 % 2 ^ 32 := by omega
  simp only [header_eq, List.cons_append, List.nil_append, decompress, hmagic, hsize, hc,
    if_false]


/-! ## Round trip through the retained table -/

theorem table_ready (tie : List HuffmanNode → Nat) (ds : List Int) (hds : ds ≠ [])
    (T1 : List (Int × List Bool)) (hp : T1.Perm (buildHuffmanCodes tie ds)) :
    TrieInv (rebuildTree T1) T1 ∧ (∀ e ∈ T1, e.2 ≠ [])
      ∧ ∀ d ∈ ds, (d, mapGet (buildHuffmanCodes tie ds) d []) ∈ T1 := by
  obtain ⟨_, hk, hfree, hne⟩ := buildHuffmanCodes_spec tie ds hds
  have hne1 : ∀ e ∈ T1, e.2 ≠ [] := fun e he => hne e (hp.mem_iff.mp he)
  refine ⟨rebuildTree_inv T1 (prefixFree_perm T1 _ hp hfree) hne1, hne1, ?_⟩
  intro d hd
  exact hp.mem_iff.mpr (mapGet_mem _ d [] ((hk d).mpr hd))

theorem decode_payload (tie : List HuffmanNode → Nat) (ds : List Int) (hds : ds ≠ [])
    (T1 : List (Int × List Bool)) (hp : T1.Perm (buildHuffmanCodes tie ds))
    (tail : List Nat) :
    decodeLoop (rebuildTree T1) ds.length
        (packBits (encodeBits (buildHuffmanCodes tie ds) ds) ++ tail) (rebuildTree T1) []
      = .returned ds := by
  obtain ⟨hinv, hne, hmem⟩ := table_ready tie ds hds T1 hp
  obtain ⟨pad, _, hbits⟩ := packBits_spec (encodeBits (buildHuffmanCodes tie ds) ds)
  have hpos : ([] : List Int).length < ds.length := List.length_pos.mpr hds
  rw [decodeLoop_eq _ _ _ _ _ hpos, List.flatMap_append, hbits, List.append_assoc,
    decode_all (rebuildTree T1) (buildHuffmanCodes tie ds) T1 ds.length hinv hne _ ds []
      hmem hds (by simp)]
  simp [Outcome.map]

theorem roundtrip_core (tie : List HuffmanNode → Nat) (self : DHC) (s : List Nat)
    (hne : s ≠ []) (hs : ∀ x ∈ s, x < 65536) (hlen : 2 * s.length < 2 ^ 32) :
    ∃ r self1, compress tie self (samplesToBytes s) = .returned (r, self1) ∧ r.ok = true
      ∧ ∀ (d : DHC) (tail : List Nat) (cap : Nat),
          d.lastHuffmanCodes.Perm self1.lastHuffmanCodes → 2 * s.length ≤ cap →
          decompress d (r.output ++ tail) cap = .returned ⟨true, samplesToBytes s⟩ := by
  obtain ⟨ds, _, hdl, hrec, hc⟩ := compress_samples tie self s hne hs (by omega)
  refine ⟨_, _, hc, rfl, ?_⟩
  intro d tail cap hp hcap
  have hds : ds ≠ [] := by
    intro h0
    rw [h0] at hdl
    exact hne (List.length_eq_zero.mp hdl.symm)
  simp only at hp ⊢
  rw [List.append_assoc, decompress_header d s.length _ cap (by omega) hcap, ← hdl,
    decode_payload tie ds hds _ hp tail]
  simp only [hrec]

/-! ## Truncated input -/

theorem decompress_short (d : DHC) (input : List Nat) (cap : Nat) (h : input.length < 6) :
    decompress d input cap = .returned ⟨false, []⟩ := by
  match input, h with
  | [], _ => rfl
  | [_], _ => rfl
  | [_, _], _ => rfl
  | [_, _, _], _ => rfl
  | [_, _, _, _], _ => rfl
  | [_, _, _, _, _], _ => rfl
  | _ :: _ :: _ :: _ :: _ :: _ :: _, h => exact absurd h (by simp)

theorem deltaLoop_take (prev : Nat) (xs : List Nat) (k : Nat) :
    deltaLoop prev (xs.take k) = (deltaLoop prev xs).take k := by
  induction xs generalizing prev k with
  | nil => simp [deltaLoop]
  | cons x xs ih =>
    cases k with
    | zero => simp [deltaLoop]
    | succ k => simp [deltaLoop, ih]

theorem reconstruct_take (s : List Nat) (ds : List Int) (k : Nat) (hk : 0 < k)
    (hs : ∀ x ∈ s, x < 65536) (hc : computeDeltaValues s = .returned ds) :
    reconstructFromDelta (ds.take k) = .returned (s.take k) := by
  cases s with
  | nil => simp [computeDeltaValues] at hc
  | cons x0 rest =>
    obtain ⟨k1, rfl⟩ : ∃ k1, k = k1 + 1 := ⟨k - 1, by omega⟩
    simp only [computeDeltaValues, Outcome.returned.injEq] at hc
    subst hc
    obtain ⟨d, h1, _, h2⟩ := reconstruct_compute (x0 :: rest.take k1) (by simp)
      (fun y hy => hs y (by
        rcases List.mem_cons.mp hy with h | h
        · exact h ▸ List.mem_cons_self _ _
        · exact List.mem_cons_of_mem _ (List.mem_of_mem_take h)))
    simp only [computeDeltaValues, Outcome.returned.injEq] at h1
    subst h1
    simpa [deltaLoop_take] using h2

theorem header_length (n : Nat) : (header n).length = 6 := by
  simp [header]

theorem decode_cut (tie : List HuffmanNode → Nat) (ds : List Int) (hds : ds ≠ [])
    (T1 : List (Int × List Bool)) (hp : T1.Perm (buildHuffmanCodes tie ds)) (j : Nat)
    (hj : j < (packBits (encodeBits (buildHuffmanCodes tie ds) ds)).length) :
    ∃ k, k < ds.length
      ∧ decodeLoop (rebuildTree T1) ds.length
          ((packBits (encodeBits (buildHuffmanCodes tie ds) ds)).take j) (rebuildTree T1) []
        = .returned (ds.take k) := by
  obtain ⟨hinv, hne, hmem⟩ := table_ready tie ds hds T1 hp
  obtain ⟨pad, hpad, hbits⟩ := packBits_spec (encodeBits (buildHuffmanCodes tie ds) ds)
  have hpos : ([] : List Int).length < ds.length := List.length_pos.mpr hds
  have hlen := flatMap_byteBits_length (packBits (encodeBits (buildHuffmanCodes tie ds) ds))
  rw [hbits, List.length_append, List.length_replicate] at hlen
  have h8 : 8 * j < (encodeBits (buildHuffmanCodes tie ds) ds).length := by omega
  rw [decodeLoop_eq _ _ _ _ _ hpos, flatMap_byteBits_take, hbits,
    List.take_append_of_le_length (by omega)]
  obtain ⟨k, cur, hk, hdec⟩ := decode_truncated (rebuildTree T1) (buildHuffmanCodes tie ds) T1
    ds.length hinv hne ds [] _ hmem (by simp) (List.take_prefix (8 * j) _)
    (by rw [List.length_take]; omega)
  exact ⟨k, hk, by simp [hdec, Outcome.map]⟩

theorem truncated_core (tie : List HuffmanNode → Nat) (self : DHC) (s : List Nat) (cap : Nat)
    (hne : s ≠ []) (hs : ∀ x ∈ s, x < 65536) (hlen : 2 * s.length < 2 ^ 32)
    (hcap : 2 * s.length ≤ cap) :
    ∃ r self1, compress tie self (samplesToBytes s) = .returned (r, self1)
      ∧ ∀ m, m < r.output.length →
        (m < 6 → decompress self1 (r.output.take m) cap = .returned ⟨false, []⟩)
        ∧ (6 ≤ m → ∃ k, k < s.length
            ∧ decodeLoop (rebuildTree self1.lastHuffmanCodes) s.length
                ((r.output.take m).drop 6) (rebuildTree self1.lastHuffmanCodes) []
              = .returned (self1.lastDeltaValues.take k)
            ∧ (0 < k → decompress self1 (r.output.take m) cap
                = .returned ⟨true, samplesToBytes (s.take k)⟩)) := by
  obtain ⟨ds, hcd, hdl, _, hc⟩ := compress_samples tie self s hne hs (by omega)
  refine ⟨_, _, hc, ?_⟩
  intro m hm
  have hds : ds ≠ [] := by
    intro h0
    rw [h0] at hdl
    exact hne (List.length_eq_zero.mp hdl.symm)
  refine ⟨fun h6 => decompress_short _ _ _ (by rw [List.length_take]; omega), ?_⟩
  intro h6
  simp only [List.length_append, header_length] at hm
  have htake : (header s.length ++ packBits (encodeBits (buildHuffmanCodes tie ds) ds)).take m
      = header s.length
        ++ (packBits (encodeBits (buildHuffmanCodes tie ds) ds)).take (m - 6) := by
    rw [List.take_append_eq_append_take, header_length,
      List.take_of_length_le (by rw [header_length]; exact h6)]
  obtain ⟨k, hk, hdec⟩ := decode_cut tie ds hds (buildHuffmanCodes tie ds) (List.Perm.refl _)
    (m - 6) (by omega)
  rw [hdl] at hk hdec
  refine ⟨k, hk, ?_, ?_⟩
  · simp only [htake]
    rw [List.drop_append_of_le_length (by rw [header_length]),
      List.drop_of_length_le (by rw [header_length]), List.nil_append]
    exact hdec
  · intro hk0
    simp only [htake]
    rw [decompress_header _ s.length _ cap (by omega) hcap]
    simp only [hdec, reconstruct_take s ds k hk0 hs hcd]

theorem bytesToSamples_length (input : List Nat) :
    (bytesToSamples input).length = input.length / 2 := by
  induction input using bytesToSamples.induct with
  | case1 lo hi rest ih =>
    simp only [bytesToSamples, List.length_cons, ih]
    omega
  | case2 input h =>
    match input, h with
    | [], _ => rfl
    | [_], _ => simp [bytesToSamples]
    | lo :: hi :: rest, h => exact absurd rfl (h lo hi rest)

/-! ## The single-symbol table -/

theorem foldl_mapIncr_same (v : Int) (ds : List Int) (n : Nat) (h : ∀ d ∈ ds, d = v) :
    ds.foldl mapIncr [(v, n)] = [(v, n + ds.length)] := by
  induction ds generalizing n with
  | nil => rfl
  | cons d ds ih =>
    have hd : d = v := h d (List.mem_cons_self _ _)
    subst hd
    have hstep : mapIncr [(d, n)] d = [(d, n + 1)] := by
      simp [mapIncr, mapSet, mapGet, mapFind]
    rw [List.foldl_cons, hstep, ih (n + 1) fun x hx => h x (List.mem_cons_of_mem _ hx)]
    simp only [List.length_cons]
    congr 2
    omega

theorem countFrequencies_same (v : Int) (ds : List Int) (hds : ds ≠ [])
    (h : ∀ d ∈ ds, d = v) : countFrequencies ds = [(v, ds.length)] := by
  cases ds with
  | nil => exact absurd rfl hds
  | cons d ds =>
    have hd : d = v := h d (List.mem_cons_self _ _)
    subst hd
    have hstep : mapIncr [] d = [(d, 1)] := by
      simp [mapIncr, mapSet, mapGet, mapFind]
    unfold countFrequencies
    rw [List.foldl_cons, hstep,
      foldl_mapIncr_same d ds 1 fun x hx => h x (List.mem_cons_of_mem _ hx)]
    simp only [List.length_cons]
    congr 2
    omega

/-! ## Payload size -/

theorem encodeBits_length (T : List (Int × List Bool)) (ds : List Int) :
    (encodeBits T ds).length = (ds.map fun d => (mapGet T d []).length).sum := by
  induction ds with
  | nil => rfl
  | cons d ds ih => simp [encodeBits_cons, ih]

/-! ## Invariants of `buildTree` -/

theorem buildTree_invariant (tie : List HuffmanNode → Nat) (Inv : List HuffmanNode → Prop)
    (hperm : ∀ q q1, q.Perm q1 → Inv q → Inv q1)
    (hstep : ∀ left right rest, Inv (left :: right :: rest) →
      (∀ x ∈ left :: right :: rest, left.frequency ≤ x.frequency) →
      (∀ x ∈ right :: rest, right.frequency ≤ x.frequency) →
      Inv (rest ++ [HuffmanNode.node 0 (left.frequency + right.frequency) left right]))
    (fuel : Nat) (q : List HuffmanNode) (h : Inv q) : Inv (buildTree tie fuel q) := by
  induction fuel generalizing q with
  | zero => exact h
  | succ fuel ih =>
    by_cases hlen : q.length > 1
    · have hq0 : q ≠ [] := by
        intro e
        rw [e] at hlen
        simp at hlen
      obtain ⟨left, pq1, h1⟩ := popTop_isSome tie q hq0
      obtain ⟨hp1, hmin1⟩ := popTop_spec tie q left pq1 h1
      have hq1 : pq1 ≠ [] := by
        intro e
        have := hp1.length_eq
        rw [e] at this
        simp at this
        omega
      obtain ⟨right, pq2, h2⟩ := popTop_isSome tie pq1 hq1
      obtain ⟨hp2, hmin2⟩ := popTop_spec tie pq1 right pq2 h2
      have hq : q.Perm (left :: right :: pq2) := hp1.trans (List.Perm.cons left hp2)
      simp only [buildTree, hlen, if_true, h1, h2]
      refine ih _ (hstep left right pq2 (hperm _ _ hq h) ?_ ?_)
      · intro x hx
        exact hmin1 x (hq.mem_iff.mpr hx)
      · intro x hx
        exact hmin2 x (hp2.mem_iff.mpr hx)
    · simp only [buildTree, hlen, if_false]
      exact h

theorem full_ne_null (t : HuffmanNode) (h : Full t) : t ≠ .null := by
  intro e
  rw [e] at h
  exact h

theorem parentsOrdered_symm : Symmetric ParentsOrdered := fun _ _ h => ⟨h.2, h.1⟩

theorem inners_parent (f : Nat) (left right : HuffmanNode) (hl : left ≠ .null) :
    inners (.node 0 f left right)
      = (f, left.frequency, right.frequency) :: (inners left ++ inners right) := by
  have : (HuffmanNode.node 0 f left right).isLeaf = false := by
    cases h : (HuffmanNode.node 0 f left right).isLeaf with
    | false => rfl
    | true => exact absurd ((isLeaf_node _ _ _ _).mp h).1 hl
  simp [inners, this]

theorem queueInv_perm (fr : List (Int × Nat)) (q q1 : List HuffmanNode) (hp : q.Perm q1)
    (h : QueueInv fr q) : QueueInv fr q1 := by
  obtain ⟨h1, h2, h3, h4, h5⟩ := h
  have hf : (q.flatMap inners).Perm (q1.flatMap inners) := List.Perm.flatMap_right _ hp
  refine ⟨fun t ht => h1 t (hp.mem_iff.mpr ht), fun t ht => h2 t (hp.mem_iff.mpr ht),
    fun s hs => h3 s (hf.mem_iff.mpr hs),
    fun s hs t ht => h4 s (hf.mem_iff.mpr hs) t (hp.mem_iff.mpr ht), ?_⟩
  exact (hf.pairwise_iff (fun {a b} hab => parentsOrdered_symm hab)).mp h5

theorem queueInv_step (fr : List (Int × Nat)) (left right : HuffmanNode)
    (rest : List HuffmanNode) (h : QueueInv fr (left :: right :: rest))
    (hmin1 : ∀ x ∈ left :: right :: rest, left.frequency ≤ x.frequency)
    (hmin2 : ∀ x ∈ right :: rest, right.frequency ≤ x.frequency) :
    QueueInv fr
      (rest ++ [HuffmanNode.node 0 (left.frequency + right.frequency) left right]) := by
  obtain ⟨h1, h2, h3, h4, h5⟩ := h
  have hfl : Full left := h1 left (by simp)
  have hfr : Full right := h1 right (by simp)
  have hln : left ≠ .null := full_ne_null left hfl
  have hin := inners_parent (left.frequency + right.frequency) left right hln
  have hperm : ((rest ++ [HuffmanNode.node 0 (left.frequency + right.frequency) left right]).flatMap
      inners).Perm ((left.frequency + right.frequency, left.frequency, right.frequency)
        :: (left :: right :: rest).flatMap inners) := by
    simp only [List.flatMap_append, List.flatMap_cons, List.flatMap_nil, List.append_nil, hin]
    refine List.perm_append_comm.trans ?_
    simp only [List.cons_append, List.append_assoc]
    exact List.Perm.refl _
  have hmem : ∀ s, s ∈ (rest ++ [HuffmanNode.node 0 (left.frequency + right.frequency)
      left right]).flatMap inners →
      s = (left.frequency + right.frequency, left.frequency, right.frequency)
        ∨ s ∈ (left :: right :: rest).flatMap inners := by
    intro s hs
    exact List.mem_cons.mp (hperm.mem_iff.mp hs)
  have hold : ∀ s ∈ (left :: right :: rest).flatMap inners,
      s.2.1 ≤ left.frequency ∧ s.2.2 ≤ left.frequency
        ∧ s.2.1 ≤ right.frequency ∧ s.2.2 ≤ right.frequency := by
    intro s hs
    have a := h4 s hs left (by simp)
    have b := h4 s hs right (by simp)
    exact ⟨a.1, a.2, b.1, b.2⟩
  refine ⟨?_, ?_, ?_, ?_, ?_⟩
  · intro t ht
    rcases List.mem_append.mp ht with ht | ht
    · exact h1 t (by simp [ht])
    · rw [List.mem_singleton.mp ht]
      exact Or.inr ⟨hfl, hfr⟩
  · intro t ht p v f hw
    rcases List.mem_append.mp ht with ht | ht
    · exact h2 t (by simp [ht]) p v f hw
    · rw [List.mem_singleton.mp ht] at hw
      cases p with
      | nil =>
        rw [walk_nil] at hw
        simp only [HuffmanNode.node.injEq] at hw
        exact absurd hw.2.2.1 hln
      | cons b p =>
        cases b
        · exact h2 left (by simp) p v f (by simpa [walk] using hw)
        · exact h2 right (by simp) p v f (by simpa [walk] using hw)
  · intro s hs
    rcases hmem s hs with rfl | hs
    · rfl
    · exact h3 s hs
  · intro s hs t ht
    have hlr : left.frequency ≤ right.frequency := hmin1 right (by simp)
    rcases List.mem_append.mp ht with ht | ht
    · rcases hmem s hs with rfl | hs
      · exact ⟨hmin1 t (by simp [ht]), hmin2 t (by simp [ht])⟩
      · exact h4 s hs t (by simp [ht])
    · rw [List.mem_singleton.mp ht]
      have hP : (HuffmanNode.node 0 (left.frequency + right.frequency) left right).frequency
          = left.frequency + right.frequency := rfl
      rw [hP]
      rcases hmem s hs with rfl | hs
      · simp
      · have := hold s hs
        omega
  · refine (hperm.pairwise_iff (fun {a b} hab => parentsOrdered_symm hab)).mpr ?_
    refine List.pairwise_cons.mpr ⟨?_, h5⟩
    intro s hs
    have hb := hold s hs
    have hsum := h3 s hs
    unfold ParentsOrdered
    simp only
    constructor
    · intro hle
      omega
    · intro _
      omega

theorem queueInv_init (fr : List (Int × Nat)) :
    QueueInv fr (fr.map fun pair => HuffmanNode.node pair.1 pair.2 .null .null) := by
  have hin : ((fr.map fun pair => HuffmanNode.node pair.1 pair.2 .null .null).flatMap inners)
      = [] := by
    induction fr with
    | nil => rfl
    | cons p fr ih => simp [inners, HuffmanNode.isLeaf, ih]
  refine ⟨?_, ?_, ?_, ?_, ?_⟩
  · intro t ht
    obtain ⟨p, _, rfl⟩ := List.mem_map.mp ht
    exact Or.inl ⟨rfl, rfl⟩
  · intro t ht p v f hw
    obtain ⟨pair, hpair, rfl⟩ := List.mem_map.mp ht
    cases p with
    | nil =>
      rw [walk_nil] at hw
      simp only [HuffmanNode.node.injEq, and_true] at hw
      rw [← hw.1, ← hw.2]
      exact hpair
    | cons b p =>
      rw [walk_leaf _ _ _ (by simp)] at hw
      exact absurd hw (by simp)
  · intro s hs
    rw [hin] at hs
    simp at hs
  · intro s hs
    rw [hin] at hs
    simp at hs
  · rw [hin]
    exact List.Pairwise.nil

/-! ## The tree behind a table of two or more symbols -/

theorem countFrequencies_two (ds : List Int) (a b : Int) (ha : a ∈ ds) (hb : b ∈ ds)
    (hab : a ≠ b) : 2 ≤ (countFrequencies ds).length := by
  obtain ⟨_, hmem⟩ := countFrequencies_keys ds
  have hka := (hmem a).mpr ha
  have hkb := (hmem b).mpr hb
  have hlen : (keys (countFrequencies ds)).length = (countFrequencies ds).length := by
    simp [keys]
  rw [← hlen]
  match hk : keys (countFrequencies ds), hka, hkb with
  | [], hka, _ => simp at hka
  | [x], hka, hkb =>
    simp only [List.mem_singleton] at hka hkb
    exact absurd (hka.trans hkb.symm) hab
  | _ :: _ :: _, _, _ => simp

theorem buildHuffmanCodes_tree (tie : List HuffmanNode → Nat) (ds : List Int)
    (h2 : 2 ≤ (countFrequencies ds).length) :
    ∃ root, buildHuffmanCodes tie ds = leafCodes root
      ∧ QueueInv (countFrequencies ds) [root] ∧ root.isLeaf = false
      ∧ (keys (leafCodes root)).Perm (keys (countFrequencies ds)) := by
  obtain ⟨hnd, _⟩ := countFrequencies_keys ds
  unfold buildHuffmanCodes
  simp only
  split
  · rename_i value n hfr
    rw [hfr] at h2
    simp at h2
  · rw [foldl_push_leaves, List.nil_append]
    have hq : (List.map (fun pair : Int × Nat => HuffmanNode.node pair.1 pair.2 .null .null)
        (countFrequencies ds)) ≠ [] := by
      intro e
      rw [List.map_eq_nil_iff] at e
      rw [e] at h2
      simp at h2
    obtain ⟨root, hb, _, hperm, hleaf⟩ := buildTree_spec tie _ _ hq (Nat.le_succ _)
      (by
        intro t ht
        obtain ⟨p, _, rfl⟩ := List.mem_map.mp ht
        simp)
    rw [flatMap_leaves] at hperm
    have hinv := buildTree_invariant tie (QueueInv (countFrequencies ds))
      (queueInv_perm _) (queueInv_step _)
      (List.map (fun pair : Int × Nat => HuffmanNode.node pair.1 pair.2 .null .null)
        (countFrequencies ds)).length _ (queueInv_init (countFrequencies ds))
    rw [hb] at hinv
    have hrl := hleaf (by rw [List.length_map]; exact h2)
    rw [hb, popTop_singleton]
    simp only
    have hkn : (keys (leafCodes root)).Nodup := hperm.nodup_iff.mpr hnd
    have hg : generateCodes root [] [] = leafCodes root := by
      rw [generateCodes_eq root [] [] (by simpa [keys] using hkn)]
      simp only [List.nil_append, Prod.mk.eta]
      exact List.map_id _
    exact ⟨root, hg, hinv, hrl, hperm⟩

/-! ## Frequencies are occurrence counts -/

theorem mapFind_mapSet {V : Type} (m : List (Int × V)) (k k1 : Int) (v : V) :
    mapFind (mapSet m k v) k1 = if k = k1 then some v else mapFind m k1 := by
  induction m with
  | nil => simp [mapSet, mapFind]
  | cons p m ih =>
    obtain ⟨k0, v0⟩ := p
    by_cases h0 : k0 = k
    · subst h0
      by_cases h1 : k0 = k1 <;> simp [mapSet, mapFind, h1]
    · by_cases h1 : k0 = k1
      · subst h1
        simp [mapSet, mapFind, h0, Ne.symm h0]
      · simp [mapSet, mapFind, h0, h1, ih]

theorem mapGet_foldl_mapIncr (ds : List Int) (m : List (Int × Nat)) (k : Int) :
    mapGet (ds.foldl mapIncr m) k 0 = mapGet m k 0 + ds.count k := by
  induction ds generalizing m with
  | nil => simp
  | cons d ds ih =>
    rw [List.foldl_cons, ih]
    by_cases hd : d = k
    · subst hd
      simp [mapIncr, mapGet, mapFind_mapSet]
      omega
    · have hne : ¬ (d == k) = true := by simpa using hd
      simp [mapIncr, mapGet, mapFind_mapSet, hd, List.count_cons, hne]

theorem countFrequencies_count (ds : List Int) (k : Int) (n : Nat)
    (h : (k, n) ∈ countFrequencies ds) : n = ds.count k := by
  obtain ⟨hnd, _⟩ := countFrequencies_keys ds
  have h1 := mapFind_of_mem _ k n hnd h
  have h2 := mapGet_foldl_mapIncr ds [] k
  unfold countFrequencies at h1
  simp only [mapGet, h1, Option.getD_some, mapFind, Option.getD_none, Nat.zero_add] at h2
  exact h2

/-! ## Kraft sum and code length of a full tree -/

theorem kraftSum_cons_bit (b : Bool) (L : List (Int × List Bool)) :
    kraftSum (L.map fun p => (p.1, b :: p.2)) = 1 / 2 * kraftSum L := by
  induction L with
  | nil => simp [kraftSum]
  | cons p L ih =>
    simp only [kraftSum, List.map_cons, List.sum_cons, List.length_cons] at ih ⊢
    rw [ih]
    ring

theorem kraftSum_append (L1 L2 : List (Int × List Bool)) :
    kraftSum (L1 ++ L2) = kraftSum L1 + kraftSum L2 := by
  simp [kraftSum]

theorem full_not_leaf (v : Int) (f : Nat) (l r : HuffmanNode) (h : Full l ∧ Full r) :
    (HuffmanNode.node v f l r).isLeaf = false := by
  cases hl : (HuffmanNode.node v f l r).isLeaf with
  | false => rfl
  | true => exact absurd ((isLeaf_node _ _ _ _).mp hl).1 (full_ne_null l h.1)

theorem kraftSum_full (t : HuffmanNode) (h : Full t) : kraftSum (leafCodes t) = 1 := by
  induction t with
  | null => exact absurd h (by simp [Full])
  | node v f l r ihl ihr =>
    rcases h with ⟨rfl, rfl⟩ | h
    · simp [leafCodes_leaf, kraftSum]
    · rw [leafCodes_inner v f l r (full_not_leaf v f l r h), kraftSum_append,
        kraftSum_cons_bit, kraftSum_cons_bit, ihl h.1, ihr h.2]
      norm_num

theorem leafCodes_full_pos (t : HuffmanNode) (h : Full t) : 0 < (leafCodes t).length := by
  induction t with
  | null => exact absurd h (by simp [Full])
  | node v f l r ihl _ =>
    rcases h with ⟨rfl, rfl⟩ | h
    · simp [leafCodes_leaf]
    · rw [leafCodes_inner v f l r (full_not_leaf v f l r h)]
      simp only [List.length_append, List.length_map]
      have := ihl h.1
      omega

theorem code_length_full (t : HuffmanNode) (h : Full t) :
    ∀ p ∈ leafCodes t, p.2.length + 1 ≤ (leafCodes t).length := by
  induction t with
  | null => exact absurd h (by simp [Full])
  | node v f l r ihl ihr =>
    rcases h with ⟨rfl, rfl⟩ | h
    · simp [leafCodes_leaf]
    · rw [leafCodes_inner v f l r (full_not_leaf v f l r h)]
      have hl := leafCodes_full_pos l h.1
      have hr := leafCodes_full_pos r h.2
      intro p hp
      simp only [List.length_append, List.length_map]
      rcases List.mem_append.mp hp with hp | hp
      · obtain ⟨a, ha, rfl⟩ := List.mem_map.mp hp
        have := ihl h.1 a ha
        simp only [List.length_cons]
        omega
      · obtain ⟨a, ha, rfl⟩ := List.mem_map.mp hp
        have := ihr h.2 a ha
        simp only [List.length_cons]
        omega

/-! ## Frequencies of a sequence given in runs -/

theorem mapIncr_last (m : List (Int × Nat)) (v : Int) (c : Nat) (h : v ∉ keys m) :
    mapIncr (m ++ [(v, c)]) v = m ++ [(v, c + 1)] := by
  induction m with
  | nil => simp [mapIncr, mapSet, mapGet, mapFind]
  | cons p m ih =>
    obtain ⟨k0, v0⟩ := p
    simp only [keys, List.map_cons, List.mem_cons, not_or] at h
    have hne : ¬ k0 = v := fun e => h.1 e.symm
    have ih1 := ih h.2
    simp only [mapIncr, mapGet, List.cons_append, mapFind, mapSet, hne, if_false] at ih1 ⊢
    exact congrArg _ ih1

theorem foldl_mapIncr_run (m : List (Int × Nat)) (v : Int) (c n : Nat) (h : v ∉ keys m) :
    (List.replicate n v).foldl mapIncr (m ++ [(v, c)]) = m ++ [(v, c + n)] := by
  induction n generalizing c with
  | zero => rfl
  | succ n ih =>
    rw [List.replicate_succ, List.foldl_cons, mapIncr_last m v c h, ih]
    congr 3
    omega

theorem foldl_mapIncr_runs (fr m : List (Int × Nat)) (hnd : (keys m ++ keys fr).Nodup)
    (hpos : ∀ p ∈ fr, 0 < p.2) :
    (fr.flatMap fun p => List.replicate p.2 p.1).foldl mapIncr m = m ++ fr := by
  induction fr generalizing m with
  | nil => simp
  | cons p fr ih =>
    obtain ⟨v, n⟩ := p
    have hv : v ∉ keys m := by
      intro hmem
      exact (List.nodup_append.mp hnd).2.2 hmem (by simp [keys])
    obtain ⟨n1, rfl⟩ : ∃ n1, n = n1 + 1 := ⟨n - 1, by
      have := hpos (v, n) (List.mem_cons_self _ _)
      simp only at this
      omega⟩
    have hfirst : mapIncr m v = m ++ [(v, 1)] := by
      unfold mapIncr
      rw [mapSet_of_not_mem m v _ hv]
      have : mapFind m v = none := by
        clear hnd ih
        induction m with
        | nil => rfl
        | cons q m ihm =>
          obtain ⟨k0, v0⟩ := q
          simp only [keys, List.map_cons, List.mem_cons, not_or] at hv
          have hne : ¬ k0 = v := fun e => hv.1 e.symm
          simp only [mapFind, hne, if_false]
          exact ihm hv.2
      simp [mapGet, this]
    rw [List.flatMap_cons, List.foldl_append, List.replicate_succ, List.foldl_cons, hfirst,
      foldl_mapIncr_run m v 1 n1 hv,
      ih (m ++ [(v, 1 + n1)])
        (by simpa [keys, List.append_assoc] using hnd)
        (fun q hq => hpos q (List.mem_cons_of_mem _ hq))]
    simp only [List.append_assoc, List.singleton_append]
    congr 3
    omega

theorem countFrequencies_runs (fr : List (Int × Nat)) (hnd : (keys fr).Nodup)
    (hpos : ∀ p ∈ fr, 0 < p.2) :
    countFrequencies (fr.flatMap fun p => List.replicate p.2 p.1) = fr := by
  have := foldl_mapIncr_runs fr [] (by simpa [keys] using hnd) hpos
  simpa [countFrequencies] using this

theorem buildHuffmanCodes_eq (tie : List HuffmanNode → Nat) (ds : List Int) :
    buildHuffmanCodes tie ds = codesOfFrequencies tie (countFrequencies ds) := rfl

/-! ## More frequent nodes are not deeper -/

theorem walk_node_cons (v : Int) (f : Nat) (l r : HuffmanNode) (b : Bool) (p : List Bool) :
    walk (.node v f l r) (b :: p) = walk (if b then r else l) p := rfl

theorem mem_inners_of_walk (t : HuffmanNode) (p : List Bool) (v : Int) (f : Nat)
    (l r : HuffmanNode) (hw : walk t p = .node v f l r)
    (hl : (HuffmanNode.node v f l r).isLeaf = false) :
    (f, l.frequency, r.frequency) ∈ inners t := by
  induction p generalizing t with
  | nil =>
    rw [walk_nil] at hw
    subst hw
    simp [inners, hl]
  | cons b p ih =>
    cases t with
    | null => simp [walk] at hw
    | node v0 f0 l0 r0 =>
      rw [walk_node_cons] at hw
      have hmem := ih _ hw
      have hnl : (HuffmanNode.node v0 f0 l0 r0).isLeaf = false := by
        cases h : (HuffmanNode.node v0 f0 l0 r0).isLeaf with
        | false => rfl
        | true =>
          obtain ⟨rfl, rfl⟩ := (isLeaf_node _ _ _ _).mp h
          cases b <;> simp [inners] at hmem
      simp only [inners, hnl, Bool.false_eq_true, if_false, List.mem_cons, List.mem_append]
      cases b
      · exact Or.inr (Or.inl (by simpa using hmem))
      · exact Or.inr (Or.inr (by simpa using hmem))

theorem walk_ordered (t : HuffmanNode) (h : (inners t).Pairwise ParentsOrdered)
    (p q : List Bool) (hpq : p ≠ q) (v1 : Int) (f1 : Nat) (l1 r1 : HuffmanNode)
    (v2 : Int) (f2 : Nat) (l2 r2 : HuffmanNode)
    (h1 : walk t p = .node v1 f1 l1 r1) (hn1 : (HuffmanNode.node v1 f1 l1 r1).isLeaf = false)
    (h2 : walk t q = .node v2 f2 l2 r2) (hn2 : (HuffmanNode.node v2 f2 l2 r2).isLeaf = false) :
    ParentsOrdered (f1, l1.frequency, r1.frequency) (f2, l2.frequency, r2.frequency) := by
  induction t generalizing p q with
  | null => simp [walk_null] at h1
  | node v0 f0 l0 r0 ihl ihr =>
    have hnl : (HuffmanNode.node v0 f0 l0 r0).isLeaf = false := by
      cases hh : (HuffmanNode.node v0 f0 l0 r0).isLeaf with
      | false => rfl
      | true =>
        obtain ⟨rfl, rfl⟩ := (isLeaf_node _ _ _ _).mp hh
        cases p with
        | nil =>
          cases q with
          | nil => exact absurd rfl hpq
          | cons c q => rw [walk_leaf _ _ _ (by simp)] at h2; exact absurd h2 (by simp)
        | cons b p => rw [walk_leaf _ _ _ (by simp)] at h1; exact absurd h1 (by simp)
    simp only [inners, hnl, Bool.false_eq_true, if_false, List.pairwise_cons,
      List.pairwise_append] at h
    obtain ⟨hroot, hpl, hpr, hcross⟩ := h
    cases p with
    | nil =>
      rw [walk_nil] at h1
      simp only [HuffmanNode.node.injEq] at h1
      obtain ⟨_, rfl, rfl, rfl⟩ := h1
      cases q with
      | nil => exact absurd rfl hpq
      | cons c q =>
        rw [walk_node_cons] at h2
        have hmem := mem_inners_of_walk _ q v2 f2 l2 r2 h2 hn2
        refine hroot _ ?_
        cases c
        · exact List.mem_append_left _ (by simpa using hmem)
        · exact List.mem_append_right _ (by simpa using hmem)
    | cons b p =>
      rw [walk_node_cons] at h1
      have hm1 := mem_inners_of_walk _ p v1 f1 l1 r1 h1 hn1
      cases q with
      | nil =>
        rw [walk_nil] at h2
        simp only [HuffmanNode.node.injEq] at h2
        obtain ⟨_, rfl, rfl, rfl⟩ := h2
        refine parentsOrdered_symm (hroot _ ?_)
        cases b
        · exact List.mem_append_left _ (by simpa using hm1)
        · exact List.mem_append_right _ (by simpa using hm1)
      | cons c q =>
        rw [walk_node_cons] at h2
        have hm2 := mem_inners_of_walk _ q v2 f2 l2 r2 h2 hn2
        cases b <;> cases c
        · exact ihl hpl p q (fun e => hpq (by rw [e])) (by simpa using h1) (by simpa using h2)
        · exact hcross _ (by simpa using hm1) _ (by simpa using hm2)
        · exact parentsOrdered_symm (hcross _ (by simpa using hm2) _ (by simpa using hm1))
        · exact ihr hpr p q (fun e => hpq (by rw [e])) (by simpa using h1) (by simpa using h2)

theorem frequency_le_root (t : HuffmanNode) (hsum : ∀ s ∈ inners t, s.1 = s.2.1 + s.2.2)
    (p : List Bool) (v : Int) (f : Nat) (l r : HuffmanNode)
    (hw : walk t p = .node v f l r) : f ≤ t.frequency := by
  induction p generalizing t with
  | nil =>
    rw [walk_nil] at hw
    rw [hw]
    exact le_refl _
  | cons b p ih =>
    cases t with
    | null => simp [walk] at hw
    | node v0 f0 l0 r0 =>
      rw [walk_node_cons] at hw
      have hnl : (HuffmanNode.node v0 f0 l0 r0).isLeaf = false := by
        cases hh : (HuffmanNode.node v0 f0 l0 r0).isLeaf with
        | false => rfl
        | true =>
          obtain ⟨rfl, rfl⟩ := (isLeaf_node _ _ _ _).mp hh
          cases b <;> simp [walk_null] at hw
      have hin : inners (.node v0 f0 l0 r0)
          = (f0, l0.frequency, r0.frequency) :: (inners l0 ++ inners r0) := by
        simp [inners, hnl]
      have h0 := hsum (f0, l0.frequency, r0.frequency) (by rw [hin]; simp)
      simp only at h0
      show f ≤ f0
      cases b
      · have := ih l0 (fun s hs => hsum s (by rw [hin]; simp [hs])) (by simpa using hw)
        omega
      · have := ih r0 (fun s hs => hsum s (by rw [hin]; simp [hs])) (by simpa using hw)
        omega

theorem walk_snoc_node (t : HuffmanNode) (p : List Bool) (b : Bool) (v : Int) (f : Nat)
    (l r : HuffmanNode) (h : walk t (p ++ [b]) = .node v f l r) :
    ∃ v0 f0 l0 r0, walk t p = .node v0 f0 l0 r0
      ∧ (HuffmanNode.node v0 f0 l0 r0).isLeaf = false
      ∧ (f = l0.frequency ∨ f = r0.frequency) := by
  rw [walk_append] at h
  cases hp : walk t p with
  | null =>
    rw [hp, walk_null] at h
    exact absurd h (by simp)
  | node v0 f0 l0 r0 =>
    rw [hp, walk_node_cons, walk_nil] at h
    refine ⟨v0, f0, l0, r0, rfl, ?_, ?_⟩
    · cases hh : (HuffmanNode.node v0 f0 l0 r0).isLeaf with
      | false => rfl
      | true =>
        obtain ⟨rfl, rfl⟩ := (isLeaf_node _ _ _ _).mp hh
        cases b <;> simp at h
    · cases b
      · left
        simp only [Bool.false_eq_true, if_false] at h
        rw [h]
        rfl
      · right
        simp only [if_true] at h
        rw [h]
        rfl

theorem depth_of_frequency (t : HuffmanNode) (hsum : ∀ s ∈ inners t, s.1 = s.2.1 + s.2.2)
    (hord : (inners t).Pairwise ParentsOrdered) (n : Nat) :
    ∀ (p q : List Bool) (v1 : Int) (f1 : Nat) (l1 r1 : HuffmanNode)
      (v2 : Int) (f2 : Nat) (l2 r2 : HuffmanNode),
      p.length = n → walk t p = .node v1 f1 l1 r1 → walk t q = .node v2 f2 l2 r2 →
      f2 < f1 → p.length ≤ q.length := by
  induction n with
  | zero =>
    intro p q v1 f1 l1 r1 v2 f2 l2 r2 hn _ _ _
    omega
  | succ n ih =>
    intro p q v1 f1 l1 r1 v2 f2 l2 r2 hn h1 h2 hlt
    rcases List.eq_nil_or_concat p with rfl | ⟨p1, b, hp⟩
    · simp at hn
    · rw [List.concat_eq_append] at hp
      subst hp
      obtain ⟨v3, f3, l3, r3, hw3, hn3, hf1⟩ := walk_snoc_node t p1 b v1 f1 l1 r1 h1
      rcases List.eq_nil_or_concat q with rfl | ⟨q1, c, hq⟩
      · rw [walk_nil] at h2
        have := frequency_le_root t hsum _ v1 f1 l1 r1 h1
        rw [h2] at this
        have h0 : (HuffmanNode.node v2 f2 l2 r2).frequency = f2 := rfl
        omega
      · rw [List.concat_eq_append] at hq
        subst hq
        obtain ⟨v4, f4, l4, r4, hw4, hn4, hf2⟩ := walk_snoc_node t q1 c v2 f2 l2 r2 h2
        simp only [List.length_append, List.length_singleton] at hn ⊢
        by_cases hpq : p1 = q1
        · rw [hpq]
        · have hord2 := walk_ordered t hord p1 q1 hpq v3 f3 l3 r3 v4 f4 l4 r4 hw3 hn3 hw4 hn4
          have hlt2 : f4 < f3 := by
            by_contra hge
            have := hord2.1 (by omega)
            simp only at this
            omega
          have := ih p1 q1 v3 f3 l3 r3 v4 f4 l4 r4 (by omega) hw3 hw4 hlt2
          omega

theorem leafCodes_walk (t : HuffmanNode) (a : Int) (c : List Bool)
    (h : (a, c) ∈ leafCodes t) : ∃ f, walk t c = .node a f .null .null := by
  induction t generalizing c with
  | null => simp [leafCodes] at h
  | node v f l r ihl ihr =>
    cases hleaf : (HuffmanNode.node v f l r).isLeaf with
    | true =>
      obtain ⟨rfl, rfl⟩ := (isLeaf_node _ _ _ _).mp hleaf
      rw [leafCodes_leaf] at h
      simp only [List.mem_singleton, Prod.mk.injEq] at h
      obtain ⟨rfl, rfl⟩ := h
      exact ⟨f, rfl⟩
    | false =>
      rw [leafCodes_inner v f l r hleaf] at h
      rcases List.mem_append.mp h with h | h
      · obtain ⟨x, hx, he⟩ := List.mem_map.mp h
        simp only [Prod.mk.injEq] at he
        obtain ⟨rfl, rfl⟩ := he
        obtain ⟨f1, hf1⟩ := ihl x.2 hx
        exact ⟨f1, by rw [walk_node_cons]; simpa using hf1⟩
      · obtain ⟨x, hx, he⟩ := List.mem_map.mp h
        simp only [Prod.mk.injEq] at he
        obtain ⟨rfl, rfl⟩ := he
        obtain ⟨f1, hf1⟩ := ihr x.2 hx
        exact ⟨f1, by rw [walk_node_cons]; simpa using hf1⟩

theorem buildHuffmanCodes_nil (tie : List HuffmanNode → Nat) :
    buildHuffmanCodes tie [] = [] := rfl

/-! ## Tables of two symbols -/

theorem countFrequencies_pair (ds : List Int) (a b : Int) (hab : a ≠ b) (ha : a ∈ ds)
    (hb : b ∈ ds) (hall : ∀ d ∈ ds, d = a ∨ d = b) :
    countFrequencies ds = [(a, ds.count a), (b, ds.count b)]
      ∨ countFrequencies ds = [(b, ds.count b), (a, ds.count a)] := by
  obtain ⟨hnd, hmem⟩ := countFrequencies_keys ds
  have hcount := countFrequencies_count ds
  have hin : ∀ p ∈ countFrequencies ds, p.1 = a ∨ p.1 = b := fun p hp =>
    hall p.1 ((hmem p.1).mp (List.mem_map.mpr ⟨p, hp, rfl⟩))
  have h2 := countFrequencies_two ds a b ha hb hab
  match hc : countFrequencies ds, hnd, hin, hcount, h2 with
  | [], _, _, _, h2 => simp at h2
  | [_], _, _, _, h2 => simp at h2
  | [(k1, n1), (k2, n2)], hnd, hin, hcount, _ =>
    have e1 := hcount k1 n1 (by simp)
    have e2 := hcount k2 n2 (by simp)
    have hk1 := hin (k1, n1) (by simp)
    have hk2 := hin (k2, n2) (by simp)
    simp only [keys, List.map_cons, List.map_nil, List.nodup_cons, List.mem_singleton,
      List.not_mem_nil, not_false_eq_true, List.nodup_nil, and_true] at hnd
    simp only at hk1 hk2
    rcases hk1 with rfl | rfl <;> rcases hk2 with rfl | rfl
    · exact absurd rfl hnd
    · left
      rw [e1, e2]
    · right
      rw [e1, e2]
    · exact absurd rfl hnd
  | (k1, n1) :: (k2, n2) :: (k3, n3) :: _, hnd, hin, _, _ =>
    have hk1 := hin (k1, n1) (by simp)
    have hk2 := hin (k2, n2) (by simp)
    have hk3 := hin (k3, n3) (by simp)
    simp only [keys, List.map_cons, List.nodup_cons, List.mem_cons, not_or] at hnd
    simp only at hk1 hk2 hk3
    obtain ⟨⟨h12, h13, _⟩, ⟨h23, _⟩, _⟩ := hnd
    rcases hk1 with e1 | e1 <;> rcases hk2 with e2 | e2 <;> rcases hk3 with e3 | e3 <;>
      first
        | exact absurd (e1.trans e2.symm) h12
        | exact absurd (e1.trans e3.symm) h13
        | exact absurd (e2.trans e3.symm) h23

theorem codes_of_pair (tie : List HuffmanNode → Nat) (a b : Int) (na nb : Nat)
    (hab : a ≠ b) (hlt : na < nb) :
    codesOfFrequencies tie [(a, na), (b, nb)] = [(a, [false]), (b, [true])]
      ∧ codesOfFrequencies tie [(b, nb), (a, na)] = [(a, [false]), (b, [true])] := by
  have hba : ¬ b = a := fun e => hab e.symm
  have h1 : ¬ nb ≤ na := by omega
  have h2 : na ≤ nb := by omega
  constructor
  · simp [codesOfFrequencies, buildTree, popTop, takeTop, isTop, CompareNodes,
      HuffmanNode.frequency, generateCodes, HuffmanNode.isLeaf, mapSet, h1, h2, hab, hba,
      Nat.mod_one]
  · simp [codesOfFrequencies, buildTree, popTop, takeTop, isTop, CompareNodes,
      HuffmanNode.frequency, generateCodes, HuffmanNode.isLeaf, mapSet, h1, h2, hab, hba,
      Nat.mod_one]

theorem buildHuffmanCodes_pair (tie : List HuffmanNode → Nat) (ds : List Int) (a b : Int)
    (hab : a ≠ b) (ha : a ∈ ds) (hb : b ∈ ds) (hall : ∀ d ∈ ds, d = a ∨ d = b)
    (hlt : ds.count a < ds.count b) :
    buildHuffmanCodes tie ds = [(a, [false]), (b, [true])] := by
  rw [buildHuffmanCodes_eq]
  rcases countFrequencies_pair ds a b hab ha hb hall with h | h
  · rw [h]
    exact (codes_of_pair tie a b _ _ hab hlt).1
  · rw [h]
    exact (codes_of_pair tie a b _ _ hab hlt).2

/-! ## The rebuilt tree of a complete table -/

theorem full_walk (t : HuffmanNode) (h : Full t) (p : List Bool) (hw : walk t p ≠ .null) :
    Full (walk t p) := by
  induction p generalizing t with
  | nil => rw [walk_nil]; exact h
  | cons b p ih =>
    cases t with
    | null => exact absurd h (by simp [Full])
    | node v f l r =>
      rw [walk_node_cons] at hw ⊢
      rcases h with ⟨rfl, rfl⟩ | h
      · cases b <;> simp [walk_null] at hw
      · cases b
        · exact ih l h.1 (by simpa using hw)
        · exact ih r h.2 (by simpa using hw)

theorem leafCodes_of_walk (t : HuffmanNode) (p : List Bool) (a : Int) (c : List Bool)
    (h : (a, c) ∈ leafCodes (walk t p)) : (a, p ++ c) ∈ leafCodes t := by
  induction p generalizing t with
  | nil => simpa [walk_nil] using h
  | cons b p ih =>
    cases t with
    | null => simp [walk, leafCodes] at h
    | node v f l r =>
      rw [walk_node_cons] at h
      have hmem := ih _ h
      have hnl : (HuffmanNode.node v f l r).isLeaf = false := by
        cases hh : (HuffmanNode.node v f l r).isLeaf with
        | false => rfl
        | true =>
          obtain ⟨rfl, rfl⟩ := (isLeaf_node _ _ _ _).mp hh
          cases b <;> simp [leafCodes] at hmem
      rw [leafCodes_inner v f l r hnl]
      cases b
      · exact List.mem_append_left _
          (List.mem_map.mpr ⟨(a, p ++ c), by simpa using hmem, rfl⟩)
      · exact List.mem_append_right _
          (List.mem_map.mpr ⟨(a, p ++ c), by simpa using hmem, rfl⟩)

theorem full_children (v : Int) (f : Nat) (l r : HuffmanNode)
    (h : Full (.node v f l r)) (hl : (HuffmanNode.node v f l r).isLeaf = false) :
    Full l ∧ Full r := by
  rcases h with ⟨rfl, rfl⟩ | h
  · simp [HuffmanNode.isLeaf] at hl
  · exact h

theorem full_of_walk (t : HuffmanNode) (hn : t ≠ .null)
    (h : ∀ p v f l r, walk t p = .node v f l r →
      (HuffmanNode.node v f l r).isLeaf = false → l ≠ .null ∧ r ≠ .null) : Full t := by
  induction t with
  | null => exact absurd rfl hn
  | node v f l r ihl ihr =>
    cases hleaf : (HuffmanNode.node v f l r).isLeaf with
    | true => exact Or.inl ((isLeaf_node _ _ _ _).mp hleaf)
    | false =>
      obtain ⟨hl, hr⟩ := h [] v f l r rfl hleaf
      refine Or.inr ⟨ihl hl ?_, ihr hr ?_⟩
      · intro p v1 f1 l1 r1 hw hnl
        exact h (false :: p) v1 f1 l1 r1 (by rw [walk_node_cons]; simpa using hw) hnl
      · intro p v1 f1 l1 r1 hw hnl
        exact h (true :: p) v1 f1 l1 r1 (by rw [walk_node_cons]; simpa using hw) hnl

theorem extends_to_leaf (root : HuffmanNode) (hfull : Full root) (e : Int × List Bool)
    (he : e ∈ leafCodes root) (p q : List Bool) (hpq : e.2 = p ++ q) (hq : q ≠ [])
    (b : Bool) : ∃ e1 ∈ leafCodes root, (p ++ [b]) <+: e1.2 := by
  obtain ⟨fe, hwe⟩ := leafCodes_walk root e.1 e.2 he
  rw [hpq, walk_append] at hwe
  cases hp : walk root p with
  | null =>
    rw [hp, walk_null] at hwe
    exact absurd hwe (by simp)
  | node v f l r =>
    have hnl : (HuffmanNode.node v f l r).isLeaf = false := by
      cases hh : (HuffmanNode.node v f l r).isLeaf with
      | false => rfl
      | true =>
        obtain ⟨rfl, rfl⟩ := (isLeaf_node _ _ _ _).mp hh
        rw [hp, walk_leaf _ _ _ hq] at hwe
        exact absurd hwe (by simp)
    have hfp : Full (walk root p) := full_walk root hfull p (by rw [hp]; simp)
    rw [hp] at hfp
    obtain ⟨hfl, hfr⟩ := full_children v f l r hfp hnl
    have hchild : Full (walk root (p ++ [b])) := by
      rw [walk_snoc root p b v f l r hp]
      cases b
      · exact hfl
      · exact hfr
    obtain ⟨x, hx⟩ := List.exists_mem_of_length_pos (leafCodes_full_pos _ hchild)
    exact ⟨(x.1, (p ++ [b]) ++ x.2), leafCodes_of_walk root (p ++ [b]) x.1 x.2 hx,
      List.prefix_append _ _⟩

theorem rebuildTree_full (root : HuffmanNode) (hfull : Full root)
    (hroot : root.isLeaf = false) (T : List (Int × List Bool))
    (hp : T.Perm (leafCodes root)) (hinv : TrieInv (rebuildTree T) T) :
    Full (rebuildTree T) := by
  have hne : ∀ e ∈ leafCodes root, e.2 ≠ [] := by
    intro e he
    cases root with
    | null => simp [leafCodes] at he
    | node v f l r =>
      rw [leafCodes_inner v f l r hroot] at he
      rcases List.mem_append.mp he with h | h
      · obtain ⟨a, _, rfl⟩ := List.mem_map.mp h
        simp
      · obtain ⟨a, _, rfl⟩ := List.mem_map.mp h
        simp
  obtain ⟨x, hx⟩ := List.exists_mem_of_length_pos (leafCodes_full_pos root hfull)
  obtain ⟨ha, hb, hc⟩ := hinv
  have hrootnode : rebuildTree T ≠ .null := by
    obtain ⟨v, f, l, r, hw, _⟩ := hc x (hp.mem_iff.mpr hx) [] x.2 rfl (hne x hx)
    rw [walk_nil] at hw
    rw [hw]
    simp
  refine full_of_walk _ hrootnode ?_
  intro p v f l r hw hnl
  have hprop : ∃ e ∈ leafCodes root, ∃ q, e.2 = p ++ q ∧ q ≠ [] := by
    by_cases hp0 : p = []
    · exact ⟨x, hx, x.2, by simp [hp0], hne x hx⟩
    · by_contra hcon
      have hnone : ∀ e ∈ T, ¬ p <+: e.2 := by
        intro e he hpre
        obtain ⟨q, hq⟩ := hpre
        by_cases hq0 : q = []
        · rw [hq0, List.append_nil] at hq
          have := hb e he
          rw [← hq, hw] at this
          simp only [HuffmanNode.node.injEq] at this
          obtain ⟨_, _, rfl, rfl⟩ := this
          simp [HuffmanNode.isLeaf] at hnl
        · exact hcon ⟨e, hp.mem_iff.mp he, q, hq.symm, hq0⟩
      have := ha p hp0 hnone
      rw [hw] at this
      exact absurd this (by simp)
  obtain ⟨e, he, q, hpq, hq⟩ := hprop
  have hchild : ∀ b : Bool, walk (rebuildTree T) (p ++ [b]) ≠ .null := by
    intro b
    obtain ⟨e1, he1, q1, hq1⟩ := extends_to_leaf root hfull e he p q hpq hq b
    have he1T : e1 ∈ T := hp.mem_iff.mpr he1
    by_cases hq10 : q1 = []
    · rw [hq10, List.append_nil] at hq1
      rw [hq1, hb e1 he1T]
      simp
    · obtain ⟨v1, f1, l1, r1, hw1, _⟩ := hc e1 he1T (p ++ [b]) q1 hq1.symm hq10
      rw [hw1]
      simp
  have hl := hchild false
  have hr := hchild true
  rw [walk_snoc _ p false v f l r hw] at hl
  rw [walk_snoc _ p true v f l r hw] at hr
  exact ⟨by simpa using hl, by simpa using hr⟩

/-! ## The decoding loops on a tree with both children everywhere -/

theorem decodeByte_total (root : HuffmanNode) (hroot : Full root)
    (hrl : root.isLeaf = false) (N : Nat) (bits : List Bool) (cur : HuffmanNode)
    (dv : List Int) (hcur : Full cur) (hcl : cur.isLeaf = false) :
    ∃ c1 d1, decodeByte root N bits cur dv = .returned (c1, d1)
      ∧ Full c1 ∧ c1.isLeaf = false ∧ dv <+: d1 := by
  induction bits generalizing cur dv with
  | nil => exact ⟨cur, dv, rfl, hcur, hcl, List.prefix_refl _⟩
  | cons b bits ih =>
    cases cur with
    | null => exact absurd hcur (by simp [Full])
    | node v0 f0 l r =>
      obtain ⟨hfl, hfr⟩ := full_children v0 f0 l r hcur hcl
      have hfc : Full (if b then r else l) := by
        cases b
        · exact hfl
        · exact hfr
      cases hc : (if b then r else l) with
      | null =>
        rw [hc] at hfc
        exact absurd hfc (by simp [Full])
      | node v f l1 r1 =>
        rw [hc] at hfc
        cases hl : (HuffmanNode.node v f l1 r1).isLeaf with
        | false =>
          rw [decodeByte_step_inner _ _ _ _ _ _ _ _ _ _ _ _ _ hc hl]
          exact ih _ _ hfc hl
        | true =>
          obtain ⟨h1, h2⟩ := (isLeaf_node v f l1 r1).mp hl
          subst h1 h2
          rw [decodeByte_step_leaf _ _ _ _ _ _ _ _ _ _ _ hc]
          by_cases hN : (dv ++ [v]).length = N
          · simp only [hN, if_true]
            exact ⟨root, dv ++ [v], rfl, hroot, hrl, List.prefix_append _ _⟩
          · simp only [hN, if_false]
            obtain ⟨c1, d1, h1, h2, h3, h4⟩ := ih root (dv ++ [v]) hroot hrl
            exact ⟨c1, d1, h1, h2, h3, (List.prefix_append _ _).trans h4⟩

theorem decodeLoop_total (root : HuffmanNode) (hroot : Full root)
    (hrl : root.isLeaf = false) (N : Nat) (bytes : List Nat) (cur : HuffmanNode)
    (dv : List Int) (hcur : Full cur) (hcl : cur.isLeaf = false) :
    ∃ d1, decodeLoop root N bytes cur dv = .returned d1 := by
  induction bytes generalizing cur dv with
  | nil => exact ⟨dv, rfl⟩
  | cons byte bytes ih =>
    obtain ⟨c1, d1, h1, h2, h3, _⟩ :=
      decodeByte_total root hroot hrl N (byteBits byte) cur dv hcur hcl
    unfold decodeLoop
    rw [h1]
    by_cases hN : d1.length = N
    · exact ⟨d1, by simp [hN]⟩
    · simp only [hN, if_false]
      exact ih c1 d1 h2 h3

theorem compress_retains (tie : List HuffmanNode → Nat) (self : DHC) (input : List Nat)
    (r : Ret) (d : DHC) (hc : compress tie self input = .returned (r, d))
    (hok : r.ok = true) :
    d.lastHuffmanCodes = buildHuffmanCodes tie d.lastDeltaValues := by
  unfold compress at hc
  split_ifs at hc with h0 h1
  · simp only [Outcome.returned.injEq, Prod.mk.injEq] at hc
    rw [← hc.1] at hok
    simp at hok
  · cases hd : computeDeltaValues (bytesToSamples input) with
    | undefined => simp [hd] at hc
    | returned ds =>
      simp only [hd, Outcome.returned.injEq, Prod.mk.injEq] at hc
      rw [← hc.2]

theorem rebuildTree_complete (tie : List HuffmanNode → Nat) (ds : List Int)
    (h2 : ∃ a ∈ ds, ∃ b ∈ ds, a ≠ b) (T : List (Int × List Bool))
    (hp : T.Perm (buildHuffmanCodes tie ds)) :
    Full (rebuildTree T) ∧ (rebuildTree T).isLeaf = false := by
  obtain ⟨a, ha, b, hb, hab⟩ := h2
  have hds : ds ≠ [] := List.ne_nil_of_mem ha
  obtain ⟨root, htab, hinv, hrl, _⟩ :=
    buildHuffmanCodes_tree tie ds (countFrequencies_two ds a b ha hb hab)
  obtain ⟨htrie, hne, _⟩ := table_ready tie ds hds T hp
  have hfull : Full root := hinv.1 root (List.mem_singleton_self root)
  refine ⟨rebuildTree_full root hfull hrl T (htab ▸ hp) htrie, ?_⟩
  obtain ⟨x, hx⟩ := List.exists_mem_of_length_pos (leafCodes_full_pos root hfull)
  have hxT : x ∈ T := hp.mem_iff.mpr (htab ▸ hx)
  obtain ⟨v, f, l, r, hw, hl⟩ := htrie.2.2 x hxT [] x.2 rfl (hne x hxT)
  rw [walk_nil] at hw
  rw [hw]
  exact hl

/-! # The claims -/

/-- C1. Round trip: for every non-empty sequence `s` of 16-bit samples whose byte count
fits `size_t`, `compress` on the bytes of `s` succeeds, and `decompress` of the bytes it
produced, on the instance as `compress` left it and with an output capacity of at least
`2 * |s|`, succeeds and returns exactly the bytes of `s`, `2 * |s|` of them. The same
holds in whatever order the retained table is iterated. -/
theorem C1_round_trip (tie : List HuffmanNode → Nat) (self : DHC) (s : List Nat) (cap : Nat)
    (hne : s ≠ []) (hs : ∀ x ∈ s, x < 65536) (hlen : 2 * s.length < 2 ^ 32)
    (hcap : 2 * s.length ≤ cap) :
    ∃ r self1, compress tie self (samplesToBytes s) = .returned (r, self1) ∧ r.ok = true
      ∧ decompress self1 r.output cap = .returned ⟨true, samplesToBytes s⟩
      ∧ (samplesToBytes s).length = 2 * s.length
      ∧ ∀ codes, codes.Perm self1.lastHuffmanCodes →
          decompress ⟨self1.lastDeltaValues, codes⟩ r.output cap
            = .returned ⟨true, samplesToBytes s⟩ := by
  obtain ⟨r, self1, hc, hok, hd⟩ := roundtrip_core tie self s hne hs hlen
  refine ⟨r, self1, hc, hok, ?_, samplesToBytes_length s, ?_⟩
  · simpa using hd self1 [] cap (List.Perm.refl _) hcap
  · intro codes hp
    simpa using hd ⟨self1.lastDeltaValues, codes⟩ [] cap hp hcap

/-- C1 at the samples `[10, 11, 12, 13, 14]` on a fresh instance with a 10-byte output. -/
theorem C1_round_trip_witness :
    ([10, 11, 12, 13, 14] : List Nat) ≠ []
      ∧ (∀ x ∈ ([10, 11, 12, 13, 14] : List Nat), x < 65536)
      ∧ 2 * ([10, 11, 12, 13, 14] : List Nat).length < 2 ^ 32
      ∧ 2 * ([10, 11, 12, 13, 14] : List Nat).length ≤ 10
      ∧ ∃ r self1, compress (fun _ => 0) fresh (samplesToBytes [10, 11, 12, 13, 14])
            = .returned (r, self1) ∧ r.ok = true
          ∧ decompress self1 r.output 10 = .returned ⟨true, samplesToBytes [10, 11, 12, 13, 14]⟩
          ∧ (samplesToBytes [10, 11, 12, 13, 14]).length
              = 2 * ([10, 11, 12, 13, 14] : List Nat).length
          ∧ ∀ codes, codes.Perm self1.lastHuffmanCodes →
              decompress ⟨self1.lastDeltaValues, codes⟩ r.output 10
                = .returned ⟨true, samplesToBytes [10, 11, 12, 13, 14]⟩ :=
  ⟨by decide, by decide, by decide, by decide,
    C1_round_trip (fun _ => 0) fresh [10, 11, 12, 13, 14] 10
      (by decide) (by decide) (by decide) (by decide)⟩

/-- C2. Delta bijection: for every non-empty sequence `s` of 16-bit samples,
`computeDeltaValues` returns a delta sequence from which `reconstructFromDelta`
returns `s` again. -/
theorem C2_delta_bijection (s : List Nat) (hne : s ≠ []) (hs : ∀ x ∈ s, x < 65536) :
    (computeDeltaValues s).bind reconstructFromDelta = .returned s := by
  obtain ⟨d, h1, _, h2⟩ := reconstruct_compute s hne hs
  rw [h1]
  exact h2

/-- C2 at the wrap-provoking input `[0, 65535, 0, 65535]`. -/
theorem C2_delta_bijection_witness :
    ([0, 65535, 0, 65535] : List Nat) ≠ [] ∧ (∀ x ∈ ([0, 65535, 0, 65535] : List Nat), x < 65536)
      ∧ (computeDeltaValues [0, 65535, 0, 65535]).bind reconstructFromDelta
          = .returned [0, 65535, 0, 65535] :=
  ⟨by decide, by decide,
    C2_delta_bijection [0, 65535, 0, 65535] (by decide) (by decide)⟩

/-- C3 as stated fails: the same seven bytes, produced alike by compressing the sample
`0` and by compressing the sample `5`, decode to `0` on the instance that compressed
`0`, to `5` on the instance that compressed `5`, and have no defined result on a fresh
instance. -/
theorem C3_counterexample :
    compress (fun _ => 0) fresh [0, 0]
        = .returned (⟨true, [0x44, 0x48, 0, 0, 0, 1, 0]⟩, ⟨[0], [(0, [false])]⟩)
      ∧ compress (fun _ => 0) fresh [5, 0]
        = .returned (⟨true, [0x44, 0x48, 0, 0, 0, 1, 0]⟩, ⟨[5], [(5, [false])]⟩)
      ∧ decompress ⟨[0], [(0, [false])]⟩ [0x44, 0x48, 0, 0, 0, 1, 0] 2
        = .returned ⟨true, [0, 0]⟩
      ∧ decompress ⟨[5], [(5, [false])]⟩ [0x44, 0x48, 0, 0, 0, 1, 0] 2
        = .returned ⟨true, [5, 0]⟩
      ∧ decompress fresh [0x44, 0x48, 0, 0, 0, 1, 0] 2 = .undefined := by
  refine ⟨?_, ?_, ?_, ?_, ?_⟩ <;> rfl

/-- C3, amended. The result of `decompress` depends on the instance only through the
retained code table: two instances with the same `lastHuffmanCodes` give the same result
on every input and capacity; and every instance that retains the entries of the table
`compress` built for a buffer (in any iteration order) decodes that buffer back to the
original samples. -/
theorem C3_retained_table (tie : List HuffmanNode → Nat) (self : DHC) (s : List Nat)
    (cap : Nat) (hne : s ≠ []) (hs : ∀ x ∈ s, x < 65536) (hlen : 2 * s.length < 2 ^ 32)
    (hcap : 2 * s.length ≤ cap) :
    (∀ (d1 d2 : DHC) (input : List Nat) (n : Nat),
        d1.lastHuffmanCodes = d2.lastHuffmanCodes →
        decompress d1 input n = decompress d2 input n)
      ∧ ∃ r self1, compress tie self (samplesToBytes s) = .returned (r, self1)
          ∧ ∀ d : DHC, d.lastHuffmanCodes.Perm self1.lastHuffmanCodes →
              decompress d r.output cap = .returned ⟨true, samplesToBytes s⟩ := by
  constructor
  · intro d1 d2 input n h
    unfold decompress
    rw [h]
  · obtain ⟨r, self1, hc, _, hd⟩ := roundtrip_core tie self s hne hs hlen
    exact ⟨r, self1, hc, fun d hp => by simpa using hd d [] cap hp hcap⟩

/-- C3, amended, at the samples `[0, 65535, 0, 65535]`. -/
theorem C3_retained_table_witness :
    ([0, 65535, 0, 65535] : List Nat) ≠ []
      ∧ (∀ x ∈ ([0, 65535, 0, 65535] : List Nat), x < 65536)
      ∧ 2 * ([0, 65535, 0, 65535] : List Nat).length < 2 ^ 32
      ∧ 2 * ([0, 65535, 0, 65535] : List Nat).length ≤ 8
      ∧ ((∀ (d1 d2 : DHC) (input : List Nat) (n : Nat),
          d1.lastHuffmanCodes = d2.lastHuffmanCodes →
          decompress d1 input n = decompress d2 input n)
        ∧ ∃ r self1, compress (fun _ => 0) fresh (samplesToBytes [0, 65535, 0, 65535])
              = .returned (r, self1)
            ∧ ∀ d : DHC, d.lastHuffmanCodes.Perm self1.lastHuffmanCodes →
                decompress d r.output 8
                  = .returned ⟨true, samplesToBytes [0, 65535, 0, 65535]⟩) :=
  ⟨by decide, by decide, by decide, by decide,
    C3_retained_table (fun _ => 0) fresh [0, 65535, 0, 65535] 8
      (by decide) (by decide) (by decide) (by decide)⟩

/-- C4 as stated fails: nine samples `0` compress to the header and two payload bytes;
with the last byte dropped `decompress` returns success with eight samples (16 bytes)
although the header declares nine. -/
theorem C4_counterexample :
    compress (fun _ => 0) fresh (samplesToBytes [0, 0, 0, 0, 0, 0, 0, 0, 0])
        = .returned (⟨true, [0x44, 0x48, 0, 0, 0, 9, 0, 0]⟩,
            ⟨[0, 0, 0, 0, 0, 0, 0, 0, 0], [(0, [false])]⟩)
      ∧ decompress ⟨[0, 0, 0, 0, 0, 0, 0, 0, 0], [(0, [false])]⟩
          [0x44, 0x48, 0, 0, 0, 9, 0] 18
        = .returned ⟨true, [0, 0, 0, 0, 0, 0, 0, 0, 0, 0, 0, 0, 0, 0, 0, 0]⟩ := by
  refine ⟨?_, ?_⟩ <;> rfl

/-- C4, amended. For the buffer `compress` produces from a non-empty sample sequence `s`
and each of its proper initial segments (the first `m` bytes), on the same instance: with
fewer than 6 bytes `decompress` reports failure; with 6 bytes or more the decoding loop
ends after `k < |s|` symbols, the first `k` deltas, and when `k ≥ 1` `decompress` returns
success with the first `k` samples of `s`, fewer than the header declares. -/
theorem C4_truncation (tie : List HuffmanNode → Nat) (self : DHC) (s : List Nat) (cap : Nat)
    (hne : s ≠ []) (hs : ∀ x ∈ s, x < 65536) (hlen : 2 * s.length < 2 ^ 32)
    (hcap : 2 * s.length ≤ cap) :
    ∃ r self1, compress tie self (samplesToBytes s) = .returned (r, self1)
      ∧ ∀ m, m < r.output.length →
        (m < 6 → decompress self1 (r.output.take m) cap = .returned ⟨false, []⟩)
        ∧ (6 ≤ m → ∃ k, k < s.length
            ∧ decodeLoop (rebuildTree self1.lastHuffmanCodes) s.length
                ((r.output.take m).drop 6) (rebuildTree self1.lastHuffmanCodes) []
              = .returned (self1.lastDeltaValues.take k)
            ∧ (0 < k → decompress self1 (r.output.take m) cap
                = .returned ⟨true, samplesToBytes (s.take k)⟩)) :=
  truncated_core tie self s cap hne hs hlen hcap

/-- C4, amended, at nine samples `0`. -/
theorem C4_truncation_witness :
    ([0, 0, 0, 0, 0, 0, 0, 0, 0] : List Nat) ≠ []
      ∧ (∀ x ∈ ([0, 0, 0, 0, 0, 0, 0, 0, 0] : List Nat), x < 65536)
      ∧ 2 * ([0, 0, 0, 0, 0, 0, 0, 0, 0] : List Nat).length < 2 ^ 32
      ∧ 2 * ([0, 0, 0, 0, 0, 0, 0, 0, 0] : List Nat).length ≤ 18
      ∧ ∃ r self1, compress (fun _ => 0) fresh (samplesToBytes [0, 0, 0, 0, 0, 0, 0, 0, 0])
            = .returned (r, self1)
          ∧ ∀ m, m < r.output.length →
            (m < 6 → decompress self1 (r.output.take m) 18 = .returned ⟨false, []⟩)
            ∧ (6 ≤ m → ∃ k, k < ([0, 0, 0, 0, 0, 0, 0, 0, 0] : List Nat).length
                ∧ decodeLoop (rebuildTree self1.lastHuffmanCodes)
                    ([0, 0, 0, 0, 0, 0, 0, 0, 0] : List Nat).length
                    ((r.output.take m).drop 6) (rebuildTree self1.lastHuffmanCodes) []
                  = .returned (self1.lastDeltaValues.take k)
                ∧ (0 < k → decompress self1 (r.output.take m) 18
                    = .returned ⟨true, samplesToBytes
                        (([0, 0, 0, 0, 0, 0, 0, 0, 0] : List Nat).take k)⟩)) :=
  ⟨by decide, by decide, by decide, by decide,
    C4_truncation (fun _ => 0) fresh [0, 0, 0, 0, 0, 0, 0, 0, 0] 18
      (by decide) (by decide) (by decide) (by decide)⟩

/-- C5. Delta definition: for every non-empty sequence `s` of 16-bit samples,
`computeDeltaValues` returns a sequence `d` of the same length; `d[0]` is `s[0]` read as
a signed 16-bit value, and each later `d[i+1]` is `(s[i+1] - s[i]) mod 2^16` read as a
signed 16-bit value. On `[0, 65535]` it returns `[0, -1]`. -/
theorem C5_delta_definition (s : List Nat) (hne : s ≠ []) (hs : ∀ x ∈ s, x < 65536) :
    ∃ d, computeDeltaValues s = .returned d ∧ d.length = s.length
      ∧ (∀ x : Nat, s[0]? = some x → d[0]? = some (if x < 32768 then (x : Int) else (x : Int) - 65536))
      ∧ (∀ i x y : Nat, s[i]? = some x → s[i + 1]? = some y →
          d[i + 1]? = some (if ((y : Int) - x) % 65536 < 32768 then ((y : Int) - x) % 65536
            else ((y : Int) - x) % 65536 - 65536))
      ∧ computeDeltaValues [0, 65535] = .returned [0, -1] := by
  cases s with
  | nil => exact absurd rfl hne
  | cons x0 rest =>
    refine ⟨_, rfl, by simp [deltaLoop_length], ?_, ?_, rfl⟩
    · intro x hx
      simp only [List.getElem?_cons_zero, Option.some.injEq] at hx
      subst hx
      simp only [List.getElem?_cons_zero]
      rw [toInt16_nat x0 (hs x0 (List.mem_cons_self _ _))]
    · intro i x y hx hy
      simp only [List.getElem?_cons_succ] at hy ⊢
      rw [deltaLoop_getElem x0 rest i x y hx hy, toInt16_sub]

/-- C5 at the input `[7, 3, 65535]`. -/
theorem C5_delta_definition_witness :
    ∃ d, computeDeltaValues [7, 3, 65535] = .returned d ∧ d.length = ([7, 3, 65535] : List Nat).length
      ∧ (∀ x : Nat, ([7, 3, 65535] : List Nat)[0]? = some x →
          d[0]? = some (if x < 32768 then (x : Int) else (x : Int) - 65536))
      ∧ (∀ i x y : Nat, ([7, 3, 65535] : List Nat)[i]? = some x →
          ([7, 3, 65535] : List Nat)[i + 1]? = some y →
          d[i + 1]? = some (if ((y : Int) - x) % 65536 < 32768 then ((y : Int) - x) % 65536
            else ((y : Int) - x) % 65536 - 65536))
      ∧ computeDeltaValues [0, 65535] = .returned [0, -1] :=
  C5_delta_definition [7, 3, 65535] (by decide) (by decide)

/-- C6. Stream header: whenever `compress` succeeds on an input whose size fits `size_t`,
the first six output bytes are `0x44 0x48` followed by four bytes `b3 b2 b1 b0`, the
32-bit big-endian encoding of `input_size / 2`. -/
theorem C6_stream_header (tie : List HuffmanNode → Nat) (self : DHC) (input : List Nat)
    (r : Ret) (self1 : DHC) (hlen : input.length < 2 ^ 32)
    (h : compress tie self input = .returned (r, self1)) (hok : r.ok = true) :
    ∃ b3 b2 b1 b0, r.output.take 6 = [0x44, 0x48, b3, b2, b1, b0]
      ∧ b3 < 256 ∧ b2 < 256 ∧ b1 < 256 ∧ b0 < 256
      ∧ 16777216 * b3 + 65536 * b2 + 256 * b1 + b0 = input.length / 2 := by
  unfold compress at h
  split_ifs at h with h0 h1
  · simp only [Outcome.returned.injEq, Prod.mk.injEq] at h
    rw [← h.1] at hok
    simp at hok
  · cases hd : computeDeltaValues (bytesToSamples input) with
    | undefined => simp [hd] at h
    | returned ds =>
      simp only [hd, Outcome.returned.injEq, Prod.mk.injEq] at h
      rw [← h.1]
      have hn : (bytesToSamples input).length % 2 ^ 32 = input.length / 2 := by
        rw [bytesToSamples_length]
        omega
      simp only [hn, header_eq, List.cons_append, List.nil_append, List.take_succ_cons,
        List.take_zero]
      exact ⟨_, _, _, _, rfl, by omega, by omega, by omega, by omega, by omega⟩

/-- C6 at the eight bytes of the samples `[100, 100, 100, 100]`. -/
theorem C6_stream_header_witness :
    ([100, 0, 100, 0, 100, 0, 100, 0] : List Nat).length < 2 ^ 32
      ∧ compress (fun _ => 0) fresh [100, 0, 100, 0, 100, 0, 100, 0]
          = .returned (⟨true, [0x44, 0x48, 0, 0, 0, 4, 0x70]⟩,
              ⟨[100, 0, 0, 0], [(100, [false]), (0, [true])]⟩)
      ∧ ∃ b3 b2 b1 b0,
          (Ret.mk true [0x44, 0x48, 0, 0, 0, 4, 0x70]).output.take 6 = [0x44, 0x48, b3, b2, b1, b0]
          ∧ b3 < 256 ∧ b2 < 256 ∧ b1 < 256 ∧ b0 < 256
          ∧ 16777216 * b3 + 65536 * b2 + 256 * b1 + b0
              = ([100, 0, 100, 0, 100, 0, 100, 0] : List Nat).length / 2 :=
  ⟨by decide, rfl,
    C6_stream_header (fun _ => 0) fresh [100, 0, 100, 0, 100, 0, 100, 0]
      ⟨true, [0x44, 0x48, 0, 0, 0, 4, 0x70]⟩ ⟨[100, 0, 0, 0], [(100, [false]), (0, [true])]⟩
      (by decide) rfl rfl⟩

/-- C7. Bad magic: for every byte input whose first two bytes are not `0x44 0x48`,
every instance state and every output capacity, `decompress` reports failure. -/
theorem C7_bad_magic (self : DHC) (input : List Nat) (cap : Nat)
    (hb : ∀ b ∈ input, b < 256) (hm : input.take 2 ≠ [0x44, 0x48]) :
    decompress self input cap = .returned ⟨false, []⟩ := by
  by_cases hl : input.length < 6
  · exact decompress_short self input cap hl
  · match input, hl, hb, hm with
    | b0 :: b1 :: b2 :: b3 :: b4 :: b5 :: payload, _, hb, hm =>
      have h0 : b0 < 256 := hb b0 (by simp)
      have h1 : b1 < 256 := hb b1 (by simp)
      have hne : ¬ (b0 = 0x44 ∧ b1 = 0x48) := by
        intro h
        apply hm
        simp [h.1, h.2]
      have hmagic : ((b0 <<< 8) ||| b1) % 2 ^ 16 ≠ MAGIC := by
        rw [shl8_or b0 b1 h1]
        unfold MAGIC
        omega
      simp only [decompress, hmagic, if_true, ne_eq, not_false_eq_true]
    | [], hl, _, _ => simp at hl
    | [_], hl, _, _ => simp at hl
    | [_, _], hl, _, _ => simp at hl
    | [_, _, _], hl, _, _ => simp at hl
    | [_, _, _, _], hl, _, _ => simp at hl
    | [_, _, _, _, _], hl, _, _ => simp at hl

/-- C7 at an input beginning `0x00 0x00`, on an instance that retains a code table. -/
theorem C7_bad_magic_witness :
    (∀ b ∈ ([0, 0, 0, 0, 0, 1, 0] : List Nat), b < 256)
      ∧ ([0, 0, 0, 0, 0, 1, 0] : List Nat).take 2 ≠ [0x44, 0x48]
      ∧ decompress ⟨[0], [(0, [false])]⟩ [0, 0, 0, 0, 0, 1, 0] 100 = .returned ⟨false, []⟩ :=
  ⟨by decide, by decide,
    C7_bad_magic ⟨[0], [(0, [false])]⟩ [0, 0, 0, 0, 0, 1, 0] 100 (by decide) (by decide)⟩

/-- C8 at its failing input: the header declares `N = 2^31` samples, the caller offers
4 bytes, the instance retains the table `0 -> "0"`. The 32-bit product `originalSize * 2`
is `0`, the capacity test passes, and `decompress` returns success after storing the 16
bytes of the eight samples decoded from the payload byte. -/
theorem C8_wrapped_capacity_check :
    decompress ⟨[0], [(0, [false])]⟩ [0x44, 0x48, 0x80, 0, 0, 0, 0] 4
      = .returned ⟨true, [0, 0, 0, 0, 0, 0, 0, 0, 0, 0, 0, 0, 0, 0, 0, 0]⟩ := by
  rfl

/-- C9 at its failing input: on the three bytes `1 0 2` `compress` does not return
failure; it copies three bytes into a vector of one sample. -/
theorem C9_odd_length_not_rejected :
    compress (fun _ => 0) fresh [1, 0, 2] = .undefined := by
  rfl

/-- C10. Prefix-freeness: for every non-empty delta sequence, in the table returned by
`buildHuffmanCodes` the code of a symbol is never an initial segment of (or equal to) the
code of a different symbol. -/
theorem C10_prefix_free (tie : List HuffmanNode → Nat) (ds : List Int) (hds : ds ≠ [])
    (a b : Int) (ca cb : List Bool) (ha : (a, ca) ∈ buildHuffmanCodes tie ds)
    (hb : (b, cb) ∈ buildHuffmanCodes tie ds) (hab : a ≠ b) : ¬ ca <+: cb := by
  obtain ⟨_, _, hfree, _⟩ := buildHuffmanCodes_spec tie ds hds
  have hsym : Symmetric fun p q : Int × List Bool => ¬ p.2 <+: q.2 ∧ ¬ q.2 <+: p.2 :=
    fun _ _ h => ⟨h.2, h.1⟩
  have hne : (a, ca) ≠ (b, cb) := fun h => hab (congrArg Prod.fst h)
  exact (List.Pairwise.forall hsym hfree ha hb hne).1

/-- C10 at the deltas `[0, -1, 1, -1]`: the code `0` of `-1` against the code `10` of
`0`. -/
theorem C10_prefix_free_witness :
    ([0, -1, 1, -1] : List Int) ≠ []
      ∧ ((-1 : Int), [false]) ∈ buildHuffmanCodes (fun _ => 0) [0, -1, 1, -1]
      ∧ ((0 : Int), [true, false]) ∈ buildHuffmanCodes (fun _ => 0) [0, -1, 1, -1]
      ∧ (-1 : Int) ≠ 0
      ∧ ¬ [false] <+: [true, false] :=
  ⟨by decide, by decide, by decide, by decide,
    C10_prefix_free (fun _ => 0) [0, -1, 1, -1] (by decide) (-1) 0 [false] [true, false]
      (by decide) (by decide) (by decide)⟩

/-- C11 as stated fails: for the deltas `[100, 0, 0, 0]` of the samples
`[100, 100, 100, 100]` the two codes have length 1 and the smaller symbol `0` has the
larger code `"1"`; the payload bits are `0 1 1 1`, the payload byte is `0x70`. -/
theorem C11_counterexample :
    buildHuffmanCodes (fun _ => 0) [100, 0, 0, 0] = [(100, [false]), (0, [true])]
      ∧ compress (fun _ => 0) fresh (samplesToBytes [100, 100, 100, 100])
          = .returned (⟨true, [0x44, 0x48, 0, 0, 0, 4, 0x70]⟩,
              ⟨[100, 0, 0, 0], [(100, [false]), (0, [true])]⟩) := by
  refine ⟨rfl, rfl⟩

/-- C11, amended. In every code table returned by `buildHuffmanCodes` two different
symbols with codes of the same length have different codes; which code is the smaller
follows the tree, not the symbol values: when the deltas hold exactly two values, the
less frequent one gets `"0"` and the more frequent one `"1"`. For the samples
`[100, 100, 100, 100]` the codes are `100 -> "0"` and `0 -> "1"` and the payload byte is
`0x70`, whatever the queue does on ties. -/
theorem C11_code_order (tie : List HuffmanNode → Nat) (ds : List Int) (hds : ds ≠ []) :
    (∀ a b ca cb, (a, ca) ∈ buildHuffmanCodes tie ds → (b, cb) ∈ buildHuffmanCodes tie ds →
        a ≠ b → ca.length = cb.length → ca ≠ cb)
      ∧ (∀ a b, a ≠ b → a ∈ ds → b ∈ ds → (∀ d ∈ ds, d = a ∨ d = b) →
          ds.count a < ds.count b → buildHuffmanCodes tie ds = [(a, [false]), (b, [true])])
      ∧ ∀ self, compress tie self (samplesToBytes [100, 100, 100, 100])
          = .returned (⟨true, [0x44, 0x48, 0, 0, 0, 4, 0x70]⟩,
              ⟨[100, 0, 0, 0], [(100, [false]), (0, [true])]⟩) := by
  refine ⟨?_, ?_, ?_⟩
  · intro a b ca cb ha hb hab _ hcc
    obtain ⟨_, _, hfree, _⟩ := buildHuffmanCodes_spec tie ds hds
    have hsym : Symmetric fun p q : Int × List Bool => ¬ p.2 <+: q.2 ∧ ¬ q.2 <+: p.2 :=
      fun _ _ h => ⟨h.2, h.1⟩
    have hne : (a, ca) ≠ (b, cb) := fun h => hab (congrArg Prod.fst h)
    exact (List.Pairwise.forall hsym hfree ha hb hne).1 (hcc ▸ List.prefix_refl _)
  · intro a b hab ha hb hall hlt
    exact buildHuffmanCodes_pair tie ds a b hab ha hb hall hlt
  · intro self
    have htab : buildHuffmanCodes tie [100, 0, 0, 0] = [(100, [false]), (0, [true])] :=
      buildHuffmanCodes_pair tie [100, 0, 0, 0] 100 0 (by decide) (by decide) (by decide)
        (by decide) (by decide)
    obtain ⟨ds1, hcd, _, _, hc⟩ := compress_samples tie self [100, 100, 100, 100]
      (by decide) (by decide) (by decide)
    have hds1 : ds1 = [100, 0, 0, 0] := by
      have : computeDeltaValues [100, 100, 100, 100] = .returned [100, 0, 0, 0] := rfl
      rw [this] at hcd
      simp only [Outcome.returned.injEq] at hcd
      exact hcd.symm
    rw [hc, hds1, htab]
    rfl

/-- C11, amended, at the deltas `[100, 0, 0, 0]`. -/
theorem C11_code_order_witness :
    ([100, 0, 0, 0] : List Int) ≠ []
      ∧ (∀ a b ca cb, (a, ca) ∈ buildHuffmanCodes (fun _ => 0) [100, 0, 0, 0] →
          (b, cb) ∈ buildHuffmanCodes (fun _ => 0) [100, 0, 0, 0] →
          a ≠ b → ca.length = cb.length → ca ≠ cb)
      ∧ (∀ a b, a ≠ b → a ∈ ([100, 0, 0, 0] : List Int) → b ∈ ([100, 0, 0, 0] : List Int) →
          (∀ d ∈ ([100, 0, 0, 0] : List Int), d = a ∨ d = b) →
          ([100, 0, 0, 0] : List Int).count a < ([100, 0, 0, 0] : List Int).count b →
          buildHuffmanCodes (fun _ => 0) [100, 0, 0, 0] = [(a, [false]), (b, [true])])
      ∧ ∀ self, compress (fun _ => 0) self (samplesToBytes [100, 100, 100, 100])
          = .returned (⟨true, [0x44, 0x48, 0, 0, 0, 4, 0x70]⟩,
              ⟨[100, 0, 0, 0], [(100, [false]), (0, [true])]⟩) :=
  ⟨by decide, C11_code_order (fun _ => 0) [100, 0, 0, 0] (by decide)⟩

/-- C12. Kraft equality: for a delta sequence with at least two distinct values the code
lengths `l` of the table returned by `buildHuffmanCodes` satisfy `Σ 2^(-l) = 1`; for a
non-empty sequence with one distinct value the sum is `1/2`. -/
theorem C12_kraft_equality (tie : List HuffmanNode → Nat) (ds : List Int) (hds : ds ≠ []) :
    ((∃ a ∈ ds, ∃ b ∈ ds, a ≠ b) → kraftSum (buildHuffmanCodes tie ds) = 1)
      ∧ ((∀ a ∈ ds, ∀ b ∈ ds, a = b) → kraftSum (buildHuffmanCodes tie ds) = 1 / 2) := by
  constructor
  · rintro ⟨a, ha, b, hb, hab⟩
    obtain ⟨root, htab, hinv, _, _⟩ :=
      buildHuffmanCodes_tree tie ds (countFrequencies_two ds a b ha hb hab)
    rw [htab]
    exact kraftSum_full root (hinv.1 root (List.mem_singleton_self root))
  · intro hall
    obtain ⟨d, hd⟩ := List.exists_mem_of_ne_nil ds hds
    have htab : buildHuffmanCodes tie ds = [(d, [false])] := by
      unfold buildHuffmanCodes
      rw [countFrequencies_same d ds hds fun x hx => hall x hx d hd]
    rw [htab]
    simp [kraftSum]

/-- C12 at the deltas `[0, -1, 1, -1]` (three distinct values). -/
theorem C12_kraft_equality_witness :
    ([0, -1, 1, -1] : List Int) ≠ []
      ∧ (∃ a ∈ ([0, -1, 1, -1] : List Int), ∃ b ∈ ([0, -1, 1, -1] : List Int), a ≠ b)
      ∧ kraftSum (buildHuffmanCodes (fun _ => 0) [0, -1, 1, -1]) = 1 :=
  ⟨by decide, ⟨0, by decide, -1, by decide, by decide⟩,
    (C12_kraft_equality (fun _ => 0) [0, -1, 1, -1] (by decide)).1
      ⟨0, by decide, -1, by decide, by decide⟩⟩

/-- C13. Degenerate single-symbol case: for every non-empty delta sequence whose entries
all equal `v`, `buildHuffmanCodes` returns the table with the single entry `v -> "0"`.
On the samples `[0, 0, 0]` `compress` writes the one payload byte `0x00` after the
6-byte header, and `decompress` of that buffer returns `[0, 0, 0]`. -/
theorem C13_single_symbol (tie : List HuffmanNode → Nat) (ds : List Int) (v : Int)
    (hds : ds ≠ []) (hall : ∀ d ∈ ds, d = v) :
    buildHuffmanCodes tie ds = [(v, [false])]
      ∧ compress tie fresh (samplesToBytes [0, 0, 0])
          = .returned (⟨true, [0x44, 0x48, 0, 0, 0, 3, 0x00]⟩, ⟨[0, 0, 0], [(0, [false])]⟩)
      ∧ decompress ⟨[0, 0, 0], [(0, [false])]⟩ [0x44, 0x48, 0, 0, 0, 3, 0x00] 6
          = .returned ⟨true, samplesToBytes [0, 0, 0]⟩ := by
  refine ⟨?_, rfl, rfl⟩
  unfold buildHuffmanCodes
  rw [countFrequencies_same v ds hds hall]

/-- C13 at the deltas `[7, 7, 7, 7]`. -/
theorem C13_single_symbol_witness :
    ([7, 7, 7, 7] : List Int) ≠ [] ∧ (∀ d ∈ ([7, 7, 7, 7] : List Int), d = 7)
      ∧ buildHuffmanCodes (fun _ => 0) [7, 7, 7, 7] = [(7, [false])]
      ∧ compress (fun _ => 0) fresh (samplesToBytes [0, 0, 0])
          = .returned (⟨true, [0x44, 0x48, 0, 0, 0, 3, 0x00]⟩, ⟨[0, 0, 0], [(0, [false])]⟩)
      ∧ decompress ⟨[0, 0, 0], [(0, [false])]⟩ [0x44, 0x48, 0, 0, 0, 3, 0x00] 6
          = .returned ⟨true, samplesToBytes [0, 0, 0]⟩ :=
  ⟨by decide, by decide,
    C13_single_symbol (fun _ => 0) [7, 7, 7, 7] 7 (by decide) (by decide)⟩

/-- C14 as stated fails: in the 10945 deltas made of 1, 2, 4, 5, 8, 13, …, 4181
occurrences of the symbols 0, 1, …, 17 (no two queue entries ever have equal frequency)
the symbol `0` gets a code of 17 bits. -/
theorem C14_counterexample :
    mapGet (buildHuffmanCodes (fun _ => 0)
      (([(0, 1), (1, 2), (2, 4), (3, 5), (4, 8), (5, 13), (6, 21), (7, 34), (8, 55), (9, 89),
        (10, 144), (11, 233), (12, 377), (13, 610), (14, 987), (15, 1597), (16, 2584),
        (17, 4181)] : List (Int × Nat)).flatMap fun p => List.replicate p.2 p.1)) 0 []
      = [true, true, true, true, true, true, true, true, true, true, true, true, true, true,
          true, false, false] := by
  rw [buildHuffmanCodes_eq, countFrequencies_runs _ (by decide) (by decide)]
  rfl

/-- C14, amended. For every non-empty delta sequence the table returned by
`buildHuffmanCodes` has one entry per distinct delta value, and every code in it has
length at least 1 and at most `max 1 (d - 1)`, where `d` is the number of distinct delta
values. -/
theorem C14_code_length (tie : List HuffmanNode → Nat) (ds : List Int) (hds : ds ≠ []) :
    (buildHuffmanCodes tie ds).length = ds.dedup.length
      ∧ ∀ p ∈ buildHuffmanCodes tie ds,
          1 ≤ p.2.length ∧ p.2.length ≤ max 1 (ds.dedup.length - 1) := by
  obtain ⟨hnd, hk, _, hne⟩ := buildHuffmanCodes_spec tie ds hds
  have hlen : (buildHuffmanCodes tie ds).length = ds.dedup.length := by
    have hperm : (keys (buildHuffmanCodes tie ds)).Perm ds.dedup :=
      (List.perm_ext_iff_of_nodup hnd (List.nodup_dedup ds)).mpr fun a => by
        rw [hk a, List.mem_dedup]
    have := hperm.length_eq
    simpa [keys] using this
  refine ⟨hlen, ?_⟩
  intro p hp
  refine ⟨List.length_pos.mpr (hne p hp), ?_⟩
  rw [← hlen]
  by_cases h2 : 2 ≤ (countFrequencies ds).length
  · obtain ⟨root, htab, hinv, _, _⟩ := buildHuffmanCodes_tree tie ds h2
    rw [htab] at hp ⊢
    have := code_length_full root (hinv.1 root (List.mem_singleton_self root)) p hp
    omega
  · have hfr : ∃ v n, countFrequencies ds = [(v, n)] := by
      obtain ⟨_, hmem⟩ := countFrequencies_keys ds
      match hc : countFrequencies ds, h2 with
      | [], _ =>
        obtain ⟨d, hd⟩ := List.exists_mem_of_ne_nil ds hds
        have := (hmem d).mpr hd
        rw [hc] at this
        simp [keys] at this
      | [(v, n)], _ => exact ⟨v, n, rfl⟩
      | _ :: _ :: _, h => simp at h
    obtain ⟨v, n, hfr⟩ := hfr
    have htab : buildHuffmanCodes tie ds = [(v, [false])] := by
      unfold buildHuffmanCodes
      rw [hfr]
    rw [htab] at hp ⊢
    simp only [List.mem_singleton] at hp
    rw [hp]
    simp

/-- C14, amended, at the deltas `[0, -1, 1, -1]`. -/
theorem C14_code_length_witness :
    ([0, -1, 1, -1] : List Int) ≠ []
      ∧ (buildHuffmanCodes (fun _ => 0) [0, -1, 1, -1]).length
          = ([0, -1, 1, -1] : List Int).dedup.length
      ∧ ∀ p ∈ buildHuffmanCodes (fun _ => 0) [0, -1, 1, -1],
          1 ≤ p.2.length ∧ p.2.length ≤ max 1 (([0, -1, 1, -1] : List Int).dedup.length - 1) :=
  ⟨by decide, C14_code_length (fun _ => 0) [0, -1, 1, -1] (by decide)⟩

/-- C15. Trailing-data tolerance: for every buffer `compress` produces from a non-empty
sample sequence `s` and every byte string `t`, `decompress` of the buffer followed by
`t`, on the same instance and with a capacity of at least `2 * |s|`, returns exactly the
bytes of `s`. -/
theorem C15_trailing_data (tie : List HuffmanNode → Nat) (self : DHC) (s t : List Nat)
    (cap : Nat) (hne : s ≠ []) (hs : ∀ x ∈ s, x < 65536) (hlen : 2 * s.length < 2 ^ 32)
    (hcap : 2 * s.length ≤ cap) :
    ∃ r self1, compress tie self (samplesToBytes s) = .returned (r, self1)
      ∧ decompress self1 (r.output ++ t) cap = .returned ⟨true, samplesToBytes s⟩ := by
  obtain ⟨r, self1, hc, _, hd⟩ := roundtrip_core tie self s hne hs hlen
  exact ⟨r, self1, hc, hd self1 t cap (List.Perm.refl _) hcap⟩

/-- C15 at the samples `[10, 11, 12, 13, 14]` followed by the bytes `255 1`. -/
theorem C15_trailing_data_witness :
    ([10, 11, 12, 13, 14] : List Nat) ≠ []
      ∧ (∀ x ∈ ([10, 11, 12, 13, 14] : List Nat), x < 65536)
      ∧ 2 * ([10, 11, 12, 13, 14] : List Nat).length < 2 ^ 32
      ∧ 2 * ([10, 11, 12, 13, 14] : List Nat).length ≤ 10
      ∧ ∃ r self1, compress (fun _ => 0) fresh (samplesToBytes [10, 11, 12, 13, 14])
            = .returned (r, self1)
          ∧ decompress self1 (r.output ++ [255, 1]) 10
              = .returned ⟨true, samplesToBytes [10, 11, 12, 13, 14]⟩ :=
  ⟨by decide, by decide, by decide, by decide,
    C15_trailing_data (fun _ => 0) fresh [10, 11, 12, 13, 14] [255, 1] 10
      (by decide) (by decide) (by decide) (by decide)⟩

/-- C16 at its failing input: the header declares `N = 0` samples, one payload byte
`0x00` follows, the caller offers 0 bytes, the instance retains the table `0 -> "0"`.
The test `deltaValues.size() == originalSize` comes after the first symbol is stored and
never holds, so all eight bits are decoded and `decompress` returns success after
storing 16 bytes. -/
theorem C16_zero_count_overrun :
    decompress ⟨[0], [(0, [false])]⟩ [0x44, 0x48, 0, 0, 0, 0, 0x00] 0
      = .returned ⟨true, [0, 0, 0, 0, 0, 0, 0, 0, 0, 0, 0, 0, 0, 0, 0, 0]⟩ := by
  rfl

/-- C17. Payload packing: for every non-empty sample sequence, with `L` the sum of the
code lengths of its deltas, `compress` stores `6 + ceil(L / 8)` bytes (the value it gives
`*output_size`); the payload bytes read most-significant bit first are the code bits of
the deltas, concatenated in delta order, followed by `8 * ceil(L / 8) - L` zero bits. -/
theorem C17_payload_packing (tie : List HuffmanNode → Nat) (self : DHC) (s : List Nat)
    (hne : s ≠ []) (hs : ∀ x ∈ s, x < 65536) (hlen : 2 * s.length < 2 ^ 32) :
    ∃ r ds, compress tie self (samplesToBytes s)
          = .returned (r, ⟨ds, buildHuffmanCodes tie ds⟩)
      ∧ computeDeltaValues s = .returned ds
      ∧ r.output.length
          = 6 + ((ds.map fun d => (mapGet (buildHuffmanCodes tie ds) d []).length).sum + 7) / 8
      ∧ (r.output.drop 6).flatMap byteBits
          = (ds.flatMap fun d => mapGet (buildHuffmanCodes tie ds) d [])
            ++ List.replicate
              (8 * (((ds.map fun d => (mapGet (buildHuffmanCodes tie ds) d []).length).sum + 7) / 8)
                - (ds.map fun d => (mapGet (buildHuffmanCodes tie ds) d []).length).sum)
              false := by
  obtain ⟨ds, hcd, _, _, hc⟩ := compress_samples tie self s hne hs (by omega)
  refine ⟨_, ds, hc, hcd, ?_⟩
  obtain ⟨pad, hpad, hbits⟩ := packBits_spec (encodeBits (buildHuffmanCodes tie ds) ds)
  have hlen8 := flatMap_byteBits_length (packBits (encodeBits (buildHuffmanCodes tie ds) ds))
  rw [hbits, List.length_append, List.length_replicate, encodeBits_length] at hlen8
  have hdrop : (header s.length ++ packBits (encodeBits (buildHuffmanCodes tie ds) ds)).drop 6
      = packBits (encodeBits (buildHuffmanCodes tie ds) ds) := by
    rw [List.drop_append_of_le_length (by rw [header_length]),
      List.drop_of_length_le (by rw [header_length]), List.nil_append]
  constructor
  · simp only [List.length_append, header_length]
    omega
  · simp only [hdrop, hbits]
    have hp : pad = 8 * (((ds.map fun d => (mapGet (buildHuffmanCodes tie ds) d []).length).sum
        + 7) / 8) - (ds.map fun d => (mapGet (buildHuffmanCodes tie ds) d []).length).sum := by
      omega
    rw [← hp]
    rfl

/-- C17 at the samples `[0, 65535, 0, 65535]`. -/
theorem C17_payload_packing_witness :
    ([0, 65535, 0, 65535] : List Nat) ≠ []
      ∧ (∀ x ∈ ([0, 65535, 0, 65535] : List Nat), x < 65536)
      ∧ 2 * ([0, 65535, 0, 65535] : List Nat).length < 2 ^ 32
      ∧ ∃ r ds, compress (fun _ => 0) fresh (samplesToBytes [0, 65535, 0, 65535])
            = .returned (r, ⟨ds, buildHuffmanCodes (fun _ => 0) ds⟩)
        ∧ computeDeltaValues [0, 65535, 0, 65535] = .returned ds
        ∧ r.output.length
            = 6 + ((ds.map fun d =>
                (mapGet (buildHuffmanCodes (fun _ => 0) ds) d []).length).sum + 7) / 8
        ∧ (r.output.drop 6).flatMap byteBits
            = (ds.flatMap fun d => mapGet (buildHuffmanCodes (fun _ => 0) ds) d [])
              ++ List.replicate
                (8 * (((ds.map fun d =>
                    (mapGet (buildHuffmanCodes (fun _ => 0) ds) d []).length).sum + 7) / 8)
                  - (ds.map fun d =>
                    (mapGet (buildHuffmanCodes (fun _ => 0) ds) d []).length).sum)
                false :=
  ⟨by decide, by decide, by decide,
    C17_payload_packing (fun _ => 0) fresh [0, 65535, 0, 65535]
      (by decide) (by decide) (by decide)⟩

/-- C18 at its failing inputs: on the empty sequence both transforms access element 0
of an empty vector, and `decompress` of the header-only input `44 48 00 00 00 00` reaches
`reconstructFromDelta` with the empty sequence. -/
theorem C18_empty_sequence :
    computeDeltaValues [] = .undefined ∧ reconstructFromDelta [] = .undefined
      ∧ decompress fresh [0x44, 0x48, 0, 0, 0, 0] 0 = .undefined := by
  refine ⟨rfl, rfl, rfl⟩

/-- C19 at its failing input: the chunk of three samples `0` (six bytes) is written as
the single byte `0x00`; `process_compressed_chunk` on that byte, with the table retained
from the chunk, walks all eight bits and writes eight samples (16 bytes), not three. -/
theorem C19_chunk_padding_decoded :
    process_file_chunk (fun _ => 0) fresh [0, 0, 0, 0, 0, 0]
        = .returned (⟨true, [0x00]⟩, ⟨[0, 0, 0], [(0, [false])]⟩)
      ∧ process_compressed_chunk ⟨[0, 0, 0], [(0, [false])]⟩ [0x00]
        = .returned ⟨true, [0, 0, 0, 0, 0, 0, 0, 0, 0, 0, 0, 0, 0, 0, 0, 0]⟩ := by
  refine ⟨rfl, rfl⟩

/-- C20. More frequent symbols never get longer codes: whenever two symbols `a` and `b`
have codes in the table `buildHuffmanCodes` returns for a delta sequence and `a` occurs
strictly more often than `b` in it, the code of `a` is no longer than the code of `b`. -/
theorem C20_frequent_not_longer (tie : List HuffmanNode → Nat) (ds : List Int) (a b : Int)
    (ca cb : List Bool) (ha : (a, ca) ∈ buildHuffmanCodes tie ds)
    (hb : (b, cb) ∈ buildHuffmanCodes tie ds) (hcount : ds.count b < ds.count a) :
    ca.length ≤ cb.length := by
  have hds : ds ≠ [] := by
    intro e
    rw [e, buildHuffmanCodes_nil] at ha
    simp at ha
  obtain ⟨_, hk, _, _⟩ := buildHuffmanCodes_spec tie ds hds
  have hab : a ≠ b := by
    intro e
    rw [e] at hcount
    omega
  have hain : a ∈ ds := (hk a).mp (List.mem_map.mpr ⟨(a, ca), ha, rfl⟩)
  have hbin : b ∈ ds := (hk b).mp (List.mem_map.mpr ⟨(b, cb), hb, rfl⟩)
  obtain ⟨root, htab, hinv, _, _⟩ :=
    buildHuffmanCodes_tree tie ds (countFrequencies_two ds a b hain hbin hab)
  rw [htab] at ha hb
  obtain ⟨_, hleaves, hsum, _, hord⟩ := hinv
  simp only [List.flatMap_cons, List.flatMap_nil, List.append_nil] at hsum hord
  obtain ⟨fa, hwa⟩ := leafCodes_walk root a ca ha
  obtain ⟨fb, hwb⟩ := leafCodes_walk root b cb hb
  have hfa := countFrequencies_count ds a fa
    (hleaves root (List.mem_singleton_self root) ca a fa hwa)
  have hfb := countFrequencies_count ds b fb
    (hleaves root (List.mem_singleton_self root) cb b fb hwb)
  exact depth_of_frequency root hsum hord ca.length ca cb a fa .null .null b fb .null .null
    rfl hwa hwb (by omega)

/-- C20 at the deltas `[10, 1, 1, 1, 1]` of the samples `[10, 11, 12, 13, 14]`: the code
of `1` is not longer than the code of `10`. -/
theorem C20_frequent_not_longer_witness :
    computeDeltaValues [10, 11, 12, 13, 14] = .returned [10, 1, 1, 1, 1]
      ∧ ((1 : Int), [true]) ∈ buildHuffmanCodes (fun _ => 0) [10, 1, 1, 1, 1]
      ∧ ((10 : Int), [false]) ∈ buildHuffmanCodes (fun _ => 0) [10, 1, 1, 1, 1]
      ∧ ([10, 1, 1, 1, 1] : List Int).count 10 < ([10, 1, 1, 1, 1] : List Int).count 1
      ∧ [true].length ≤ [false].length :=
  ⟨rfl, by decide, by decide, by decide,
    C20_frequent_not_longer (fun _ => 0) [10, 1, 1, 1, 1] 1 10 [true] [false]
      (by decide) (by decide) (by decide)⟩

/-- C21. Decoder walk is total on complete tables: when the table an instance retains was
built by a successful `compress` from deltas with at least two distinct values (read in
any iteration order), the tree `decompress` rebuilds from it has no child or two children
at every node, and for every input of at least 6 bytes with the correct magic and a
capacity that passes the size test, the decoding loop runs through the whole payload
without stepping to a missing child; when it has decoded at least one symbol,
`decompress` returns success. -/
theorem C21_walk_total (tie : List HuffmanNode → Nat) (self : DHC) (input0 : List Nat)
    (r : Ret) (d e : DHC) (b2 b3 b4 b5 : Nat) (payload : List Nat) (cap : Nat)
    (hc : compress tie self input0 = .returned (r, d)) (hok : r.ok = true)
    (h2 : ∃ a ∈ d.lastDeltaValues, ∃ b ∈ d.lastDeltaValues, a ≠ b)
    (he : e.lastHuffmanCodes.Perm d.lastHuffmanCodes)
    (hcap : ¬ cap < ((b2 <<< 24) ||| (b3 <<< 16) ||| (b4 <<< 8) ||| b5) % 2 ^ 32 * 2 % 2 ^ 32) :
    Full (rebuildTree e.lastHuffmanCodes)
      ∧ ∃ dv, decodeLoop (rebuildTree e.lastHuffmanCodes)
            (((b2 <<< 24) ||| (b3 <<< 16) ||| (b4 <<< 8) ||| b5) % 2 ^ 32) payload
            (rebuildTree e.lastHuffmanCodes) [] = .returned dv
          ∧ (dv ≠ [] → ∃ out,
              decompress e (0x44 :: 0x48 :: b2 :: b3 :: b4 :: b5 :: payload) cap
                = .returned ⟨true, out⟩) := by
  have htab := compress_retains tie self input0 r d hc hok
  obtain ⟨hfull, hrl⟩ := rebuildTree_complete tie d.lastDeltaValues h2 e.lastHuffmanCodes
    (htab ▸ he)
  refine ⟨hfull, ?_⟩
  obtain ⟨dv, hdv⟩ := decodeLoop_total (rebuildTree e.lastHuffmanCodes) hfull hrl
    (((b2 <<< 24) ||| (b3 <<< 16) ||| (b4 <<< 8) ||| b5) % 2 ^ 32) payload
    (rebuildTree e.lastHuffmanCodes) [] hfull hrl
  refine ⟨dv, hdv, ?_⟩
  intro hne
  have hmagic : ¬ ((0x44 <<< 8) ||| 0x48) % 2 ^ 16 ≠ MAGIC := by decide
  cases dv with
  | nil => exact absurd rfl hne
  | cons d0 rest =>
    refine ⟨samplesToBytes (toUInt16 d0 :: reconLoop d0 rest), ?_⟩
    simp only [decompress, hmagic, hcap, if_false, hdv, reconstructFromDelta]

/-- C21 at the table retained from the samples `[10, 11, 12, 13, 14]` and the input
`44 48 00 00 00 09 AB CD`. -/
theorem C21_walk_total_witness :
    compress (fun _ => 0) fresh (samplesToBytes [10, 11, 12, 13, 14])
        = .returned (⟨true, [0x44, 0x48, 0, 0, 0, 5, 0x78]⟩,
            ⟨[10, 1, 1, 1, 1], [(10, [false]), (1, [true])]⟩)
      ∧ (∃ a ∈ ([10, 1, 1, 1, 1] : List Int), ∃ b ∈ ([10, 1, 1, 1, 1] : List Int), a ≠ b)
      ∧ ¬ 18 < ((0 <<< 24) ||| (0 <<< 16) ||| (0 <<< 8) ||| 9) % 2 ^ 32 * 2 % 2 ^ 32
      ∧ Full (rebuildTree [(10, [false]), (1, [true])])
      ∧ ∃ dv, decodeLoop (rebuildTree [(10, [false]), (1, [true])])
            (((0 <<< 24) ||| (0 <<< 16) ||| (0 <<< 8) ||| 9) % 2 ^ 32) [0xAB, 0xCD]
            (rebuildTree [(10, [false]), (1, [true])]) [] = .returned dv
          ∧ (dv ≠ [] → ∃ out,
              decompress ⟨[10, 1, 1, 1, 1], [(10, [false]), (1, [true])]⟩
                  (0x44 :: 0x48 :: 0 :: 0 :: 0 :: 9 :: [0xAB, 0xCD]) 18
                = .returned ⟨true, out⟩) :=
  ⟨rfl, ⟨10, by decide, 1, by decide, by decide⟩, by decide,
    C21_walk_total (fun _ => 0) fresh (samplesToBytes [10, 11, 12, 13, 14])
      ⟨true, [0x44, 0x48, 0, 0, 0, 5, 0x78]⟩
      ⟨[10, 1, 1, 1, 1], [(10, [false]), (1, [true])]⟩
      ⟨[10, 1, 1, 1, 1], [(10, [false]), (1, [true])]⟩ 0 0 0 9 [0xAB, 0xCD] 18
      rfl rfl ⟨10, by decide, 1, by decide, by decide⟩ (List.Perm.refl _) (by decide)⟩

end DHC
